import Mathlib

/-!
Verification development for the KCL collision-compiler core
(`kcl.py`, `bcsv.py`, `btypes.py`).

Modelling conventions for the shallow embedding:

* Python floats are modelled as `ℚ`.  Float rounding is below the
  resolution of this embedding; all comparisons and arithmetic performed
  by the source are exact on the inputs we reason about.
* `math.sqrt` has no exact rational counterpart, so every definition that
  normalises a vector is parameterised by an abstract `sqrt : ℚ → ℚ`.
  None of the verified properties depend on the values this parameter
  returns.
* Python's unbounded integers are `ℤ` (or `ℕ` where the source value is
  provably non-negative); `x & 0xFFFFFFFF` is the Euclidean remainder
  modulo `2^32` (they agree on two's-complement integers), `%` with a
  positive modulus is `Int.emod`, and `int(...)` applied to a float is
  truncation toward zero.
* The byte sink (`btypes` stream) is a trace of positioned write
  operations plus a cursor; `seek` moves the cursor, `write` appends one
  operation at the cursor.
* Recursions the source drives by geometric shrinking (octree
  subdivision, top-level flattening, breadth-first table discovery) are
  given an explicit fuel argument; the program entry points supply fuel
  that is proved (or is easily seen) sufficient for the power-of-two
  widths the program constructs.
-/

namespace KCL

attribute [local semireducible] Rat.add Rat.sub Rat.mul Rat.inv Rat.ofScientific

/-! ## Vector (`kcl.py`, class `Vector`) -/

structure Vector where
  x : ℚ
  y : ℚ
  z : ℚ
deriving DecidableEq, Repr

def Vector.add (a b : Vector) : Vector := ⟨a.x + b.x, a.y + b.y, a.z + b.z⟩

def Vector.sub (a b : Vector) : Vector := ⟨a.x - b.x, a.y - b.y, a.z - b.z⟩

def Vector.smul (s : ℚ) (a : Vector) : Vector := ⟨s * a.x, s * a.y, s * a.z⟩

def Vector.divs (a : Vector) (s : ℚ) : Vector := ⟨a.x / s, a.y / s, a.z / s⟩

def dot (a b : Vector) : ℚ := a.x * b.x + a.y * b.y + a.z * b.z

def cross (a b : Vector) : Vector :=
  ⟨a.y * b.z - a.z * b.y, a.z * b.x - a.x * b.z, a.x * b.y - a.y * b.x⟩

def Vector.norm_square (a : Vector) : ℚ := a.x * a.x + a.y * a.y + a.z * a.z

/-- Source: `unit(self) = self / self.norm()` with `norm = sqrt(norm_square)`.
The square root is the abstract parameter `sq`. -/
def Vector.unitW (sq : ℚ → ℚ) (a : Vector) : Vector := a.divs (sq a.norm_square)

/-! ## Triangle (`kcl.py`, class `Triangle`)

The Python constructor stores `u, v, w`, the (normalised) face normal `n`
and `group_index` as plain fields; afterwards the object is a record of
those five values.  We model the record directly; `mkTriangle` is the
constructor (with the abstract square root). -/

structure Triangle where
  u : Vector
  v : Vector
  w : Vector
  n : Vector
  group_index : ℕ
deriving DecidableEq, Repr

def mkTriangle (sq : ℚ → ℚ) (u v w : Vector) (group_index : ℕ) : Triangle :=
  ⟨u, v, w, (cross (v.sub u) (w.sub u)).unitW sq, group_index⟩

def defaultTriangle : Triangle := ⟨⟨0,0,0⟩, ⟨0,0,0⟩, ⟨0,0,0⟩, ⟨0,0,0⟩, 0⟩

/-! ## Triangle / axis-aligned cube overlap (`kcl.py`, `tribox_overlap`) -/

/-- Source helper `edge_axis_test(a1,a2,b1,b2,c1,c2)` inside `tribox_overlap`. -/
def edge_axis_test (half_width a1 a2 b1 b2 c1 c2 : ℚ) : Bool :=
  let p := a1 * b1 + a2 * b2
  let q := a1 * c1 + a2 * c2
  let r := half_width * (|a1| + |a2|)
  decide ((p < -r ∧ q < -r) ∨ (p > r ∧ q > r))

/-- Source helper `edge_test(v0,v1,v2)` inside `tribox_overlap`. -/
def edge_test (half_width v0x v0y v0z v1x v1y v1z v2x v2y v2z : ℚ) : Bool :=
  let ex := v1x - v0x
  let ey := v1y - v0y
  let ez := v1z - v0z
  edge_axis_test half_width ez (-ey) v0y v0z v2y v2z ||
  edge_axis_test half_width (-ez) ex v0x v0z v2x v2z ||
  edge_axis_test half_width ey (-ex) v0x v0y v2x v2y

/-- Intersection test for a triangle and the axis-aligned cube given by
`center` and `half_width`; a direct transcription of the source. -/
def tribox_overlap (t : Triangle) (center : Vector) (half_width : ℚ) : Bool :=
  let ux := t.u.x - center.x
  let uy := t.u.y - center.y
  let uz := t.u.z - center.z
  let vx := t.v.x - center.x
  let vy := t.v.y - center.y
  let vz := t.v.z - center.z
  let wx := t.w.x - center.x
  let wy := t.w.y - center.y
  let wz := t.w.z - center.z
  if (ux < -half_width ∧ vx < -half_width ∧ wx < -half_width) ∨
     (ux > half_width ∧ vx > half_width ∧ wx > half_width) ∨
     (uy < -half_width ∧ vy < -half_width ∧ wy < -half_width) ∨
     (uy > half_width ∧ vy > half_width ∧ wy > half_width) ∨
     (uz < -half_width ∧ vz < -half_width ∧ wz < -half_width) ∨
     (uz > half_width ∧ vz > half_width ∧ wz > half_width) then
    false
  else
    let n := t.n
    let d := n.x * ux + n.y * uy + n.z * uz
    let r := half_width * (|n.x| + |n.y| + |n.z|)
    if d < -r ∨ d > r then
      false
    else if edge_test half_width ux uy uz vx vy vz wx wy wz ||
            edge_test half_width vx vy vz wx wy wz ux uy uz ||
            edge_test half_width wx wy wz ux uy uz vx vy vz then
      false
    else
      true

/-! ## Vertex welder (`kcl.py`, class `VertexWelder`) -/

/-- Python `int(...)` on a (here: rational) number truncates toward zero.
`Int.div` is T-division, and a rational's denominator is positive. -/
def pyTrunc (q : ℚ) : ℤ := Int.tdiv q.num q.den

/-- Python `range(a, b + 1)` over integers, as an inclusive list. -/
def intRange (a b : ℤ) : List ℤ := (List.range (b + 1 - a).toNat).map (fun n => a + n)

structure VertexWelder where
  threshold : ℚ
  cell_width : ℚ
  buckets : List (List ℕ)
  vertices : List Vector
deriving DecidableEq, Repr

def VertexWelder.init (threshold : ℚ) (bucket_count : ℕ) : VertexWelder :=
  ⟨threshold, 16 * threshold, List.replicate bucket_count [], []⟩

/-- The three "randomly chosen large primes" from the source. -/
def magic_x : ℤ := 0x8DA6B343
def magic_y : ℤ := 0xD8163841
def magic_z : ℤ := 0x61B40079

/-- `(ix*magic_x + iy*magic_y + iz*magic_z) % len(self.buckets)`; Python `%`
with a positive modulus is Euclidean. -/
def VertexWelder.calculate_hash (w : VertexWelder) (ix iy iz : ℤ) : ℕ :=
  ((ix * magic_x + iy * magic_y + iz * magic_z).emod (w.buckets.length : ℤ)).toNat

/-- The strict per-axis closeness test from `VertexWelder.add`. -/
def chebClose (t : ℚ) (a b : Vector) : Bool :=
  decide (|a.x - b.x| < t ∧ |a.y - b.y| < t ∧ |a.z - b.z| < t)

/-- The candidate cells scanned by `VertexWelder.add`, in the source's
iteration order (`ix` outermost, `iz` innermost). -/
def VertexWelder.searchCells (w : VertexWelder) (v : Vector) : List (ℤ × ℤ × ℤ) :=
  let min_ix := pyTrunc ((v.x - w.threshold) / w.cell_width)
  let min_iy := pyTrunc ((v.y - w.threshold) / w.cell_width)
  let min_iz := pyTrunc ((v.z - w.threshold) / w.cell_width)
  let max_ix := pyTrunc ((v.x + w.threshold) / w.cell_width)
  let max_iy := pyTrunc ((v.y + w.threshold) / w.cell_width)
  let max_iz := pyTrunc ((v.z + w.threshold) / w.cell_width)
  (intRange min_ix max_ix).flatMap fun ix =>
    (intRange min_iy max_iy).flatMap fun iy =>
      (intRange min_iz max_iz).map fun iz => (ix, iy, iz)

/-- The early-`return index` search of `VertexWelder.add`: the first bucket
entry (in cell-scan order) passing the strict per-axis test. -/
def VertexWelder.findClose (w : VertexWelder) (v : Vector) : Option ℕ :=
  (w.searchCells v).findSome? fun c =>
    (w.buckets.getD (w.calculate_hash c.1 c.2.1 c.2.2) []).find? fun index =>
      match w.vertices.get? index with
      | some u => chebClose w.threshold v u
      | none => false

/-- `VertexWelder.add`: returns the updated welder and the index. -/
def VertexWelder.add (w : VertexWelder) (v : Vector) : VertexWelder × ℕ :=
  match w.findClose v with
  | some index => (w, index)
  | none =>
    let ix := pyTrunc (v.x / w.cell_width)
    let iy := pyTrunc (v.y / w.cell_width)
    let iz := pyTrunc (v.z / w.cell_width)
    let h := w.calculate_hash ix iy iz
    let newIndex := w.vertices.length
    (⟨w.threshold, w.cell_width,
      w.buckets.set h (w.buckets.getD h [] ++ [newIndex]),
      w.vertices ++ [v]⟩, newIndex)

/-- Well-formedness of a welder state: at least one bucket, and every bucket
entry indexes an existing vertex.  `VertexWelder.init` with a positive
bucket count satisfies it and `add` preserves it. -/
def WelderWF (w : VertexWelder) : Prop :=
  0 < w.buckets.length ∧ ∀ b ∈ w.buckets, ∀ i ∈ b, i < w.vertices.length

instance (w : VertexWelder) : Decidable (WelderWF w) := by
  unfold WelderWF; infer_instance

/-! ## Octree (`kcl.py`, class `Octree`)

`Octree.Node` is a tagged variant: a branch holds the list of 8 children
(in `i + 2*(j + 2*k)` order), a leaf holds a tuple of triangle indices. -/

inductive ONode where
  | leaf (indices : List ℕ)
  | branch (children : List ONode)

def ONode.is_leaf : ONode → Bool
  | .leaf _ => true
  | .branch _ => false

/-- Projection used to state concrete facts about nodes without needing
decidable equality on the nested inductive. -/
def ONode.leafIndices : ONode → Option (List ℕ)
  | .leaf indices => some indices
  | .branch _ => none

/-- `Node.__getitem__`: a leaf indexed with any octant returns itself. -/
def ONode.getOct (n : ONode) (i j k : ℕ) : ONode :=
  match n with
  | .leaf _ => n
  | .branch cs => cs.getD (i + 2 * (j + 2 * k)) (.leaf [])

/-- The octant corner directions in the source's construction order
(`for k in range(2) for j in range(2) for i in range(2)`, `i` fastest):
element `m` is `(m % 2, m / 2 % 2, m / 4)`. -/
def octVec (m : ℕ) : Vector := ⟨(m % 2 : ℕ), (m / 2 % 2 : ℕ), (m / 4 % 2 : ℕ)⟩

/-- Center of the cube with base corner `b` and width `w`. -/
def centerOf (b : Vector) (w : ℚ) : Vector :=
  b.add ⟨w / 2, w / 2, w / 2⟩

/-- The filtering step at the top of `Octree.node`: keep (in order) the
candidate indices whose triangle intersects the node's cube. -/
def tbFilter (tris : List Triangle) (S : List ℕ) (b : Vector) (w : ℚ) : List ℕ :=
  S.filter fun i => tribox_overlap (tris.getD i defaultTriangle) (centerOf b w) (w / 2)

/-- `Octree.node(base, width, indices)` with explicit fuel.  The source
recursion halves `width` and stops once `width/2 < min_width`; the program
only ever calls it with `width` a power of two `2^e` and positive
`min_width`, for which fuel `e + 1` is sufficient (no fuel-0 branch is
reached; see `claim5_node_structure`). -/
def nodeF (tris : List Triangle) (max_triangles min_width : ℕ) :
    ℕ → Vector → ℚ → List ℕ → ONode
  | 0, b, w, S => .leaf (tbFilter tris S b w)
  | fuel + 1, b, w, S =>
    let h := w / 2
    let S' := tbFilter tris S b w
    if max_triangles < S'.length ∧ (min_width : ℚ) ≤ h then
      .branch ((List.range 8).map fun m => nodeF tris max_triangles min_width fuel
        (b.add (Vector.smul h (octVec m))) h S')
    else
      .leaf S'

/-- The top-level container built by `Octree.__init__`. -/
structure OctreeT where
  base : Vector
  width_x : ℕ
  width_y : ℕ
  width_z : ℕ
  base_width : ℕ
  nx : ℕ
  ny : ℕ
  nz : ℕ
  children : List ONode

/-- `Octree.__getitem__`. -/
def OctreeT.getAt (o : OctreeT) (i j k : ℕ) : ONode :=
  o.children.getD (i + o.nx * (j + o.ny * k)) (.leaf [])

/-- Grid coordinates in the source's comprehension order
(`for k ... for j ... for i ...`, `i` fastest). -/
def gridTriples (nx ny nz : ℕ) : List (ℕ × ℕ × ℕ) :=
  (List.range nz).flatMap fun k =>
    (List.range ny).flatMap fun j =>
      (List.range nx).map fun i => (i, j, k)

def tripleVec (p : ℕ × ℕ × ℕ) : Vector := ⟨(p.1 : ℕ), (p.2.1 : ℕ), (p.2.2 : ℕ)⟩

/-- Number of top-level nodes that are branches. -/
def branchCount (ns : List ONode) : ℕ :=
  (ns.filter fun n => !n.is_leaf).length

/-- The loop guard of the flattening loop:
`sum(1 for node if not leaf) / (nx*ny*nz) >= 0.875`. -/
def flattenGuard (o : OctreeT) : Prop :=
  (7 / 8 : ℚ) ≤ (branchCount o.children : ℚ) / ((o.nx * o.ny * o.nz : ℕ) : ℚ)

instance (o : OctreeT) : Decidable (flattenGuard o) := by
  unfold flattenGuard; infer_instance

/-- One iteration of the flattening loop body: re-grid at doubled
resolution (leaves are reused as their own children via `getOct`), halve
`base_width`, double `nx`, `ny`, `nz`. -/
def flattenStep (o : OctreeT) : OctreeT :=
  { o with
    children := (gridTriples (2 * o.nx) (2 * o.ny) (2 * o.nz)).map fun p =>
      (o.getAt (p.1 / 2) (p.2.1 / 2) (p.2.2 / 2)).getOct (p.1 % 2) (p.2.1 % 2) (p.2.2 % 2)
    base_width := o.base_width / 2
    nx := 2 * o.nx
    ny := 2 * o.ny
    nz := 2 * o.nz }

/-- The `while` flattening loop, fuelled.  `Octree.init` supplies fuel
`base_width + 1`, which is proved sufficient in
`claim9_flatten_terminates`. -/
def flattenLoop : ℕ → OctreeT → OctreeT
  | 0, o => o
  | fuel + 1, o => if flattenGuard o then flattenLoop fuel (flattenStep o) else o

/-- Minimum of one coordinate over all triangle vertices (source: nested
`min` over a generator; the program never calls it on an empty list). -/
def bboxFold (f : ℚ → ℚ → ℚ) (g : Vector → ℚ) (ts : List Triangle) : ℚ :=
  match ts with
  | [] => 0
  | t :: r => r.foldl (fun m t' => f m (f (g t'.u) (f (g t'.v) (g t'.w))))
      (f (g t.u) (f (g t.v) (g t.w)))

/-- Ceiling base-2 logarithm, fuelled so that it evaluates by kernel
reduction: `clog2F f m` is the least `e` with `m ≤ 2^e` whenever the fuel
`f` is at least that `e`. -/
def clog2F : ℕ → ℕ → ℕ
  | 0, _ => 0
  | f + 1, m => if m ≤ 1 then 0 else clog2F f ((m + 1) / 2) + 1

/-- Least `e` with `m ≤ 2^e` (for `m ≥ 1`); fuel `m` always suffices. -/
def ceilLog2 (m : ℕ) : ℕ := clog2F m m

/-- Floor base-2 logarithm, fuelled likewise; `int(log(m, 2))` in the
source (the argument is always an exact power of two there, for which
floor and ceiling agree with the exponent). -/
def flog2F : ℕ → ℕ → ℕ
  | 0, _ => 0
  | f + 1, m => if m ≤ 1 then 0 else flog2F f (m / 2) + 1

def floorLog2 (m : ℕ) : ℕ := flog2F m m

/-- `2**int(ceil(log(max(extent, min_width), 2)))`.  For an argument
`q ≥ 1` the least `e` with `q ≤ 2^e` is `ceilLog2 ⌈q⌉`. -/
def pow2width (extent : ℚ) (min_width : ℕ) : ℕ :=
  2 ^ ceilLog2 (max (⌈extent⌉.toNat) min_width)

/-- Fuel supplied to `nodeF` by the top-level grid construction:
one more than the exponent of the (power-of-two) `base_width`. -/
def nodeFuel (base_width : ℕ) : ℕ := ceilLog2 base_width + 1

/-- The state of `Octree.__init__` just before the flattening loop. -/
def octreeGrid (tris : List Triangle) (max_triangles min_width : ℕ) : OctreeT :=
  let min_x := bboxFold min (fun v => v.x) tris
  let min_y := bboxFold min (fun v => v.y) tris
  let min_z := bboxFold min (fun v => v.z) tris
  let max_x := bboxFold max (fun v => v.x) tris
  let max_y := bboxFold max (fun v => v.y) tris
  let max_z := bboxFold max (fun v => v.z) tris
  let base : Vector := ⟨min_x, min_y, min_z⟩
  let width_x := pow2width (max_x - min_x) min_width
  let width_y := pow2width (max_y - min_y) min_width
  let width_z := pow2width (max_z - min_z) min_width
  let base_width := min width_x (min width_y width_z)
  let nx := width_x / base_width
  let ny := width_y / base_width
  let nz := width_z / base_width
  { base := base, width_x := width_x, width_y := width_y, width_z := width_z
    base_width := base_width, nx := nx, ny := ny, nz := nz
    children := (gridTriples nx ny nz).map fun p =>
      nodeF tris max_triangles min_width (nodeFuel base_width)
        (base.add (Vector.smul (base_width : ℕ) (tripleVec p))) (base_width : ℕ)
        (List.range tris.length) }

/-- `Octree.__init__`: build the top-level grid, then run the flattening
loop. -/
def Octree.init (tris : List Triangle) (max_triangles min_width : ℕ) : OctreeT :=
  let g := octreeGrid tris max_triangles min_width
  flattenLoop (g.base_width + 1) g

/-! ## Octree packing (`kcl.py`, `Octree.pack`)

The source runs a breadth-first queue over branch nodes; the unit of work
is always a node's `children` list (a "table": the root's full grid, or a
branch's 8 entries).  The queue (`branches`, processed with a running
index) visits tables level by level, parents before children and
left-to-right within a level, so the visited sequence equals the
concatenation of the levels; `otables` computes it that way, fuelled by
one more than the tree depth (the caller supplies fuel derived from the
construction fuel, which bounds the depth). -/

/-- The child tables of the branches of one level of tables, in order. -/
def nextTables (ts : List (List ONode)) : List (List ONode) :=
  ts.flatMap fun t => t.filterMap fun n =>
    match n with
    | .branch cs => some cs
    | .leaf _ => none

/-- Concatenation of the table levels, fuelled by the level count. -/
def tablesAux : ℕ → List (List ONode) → List (List ONode)
  | 0, _ => []
  | fuel + 1, ts => ts ++ tablesAux fuel (nextTables ts)

def otables (fuel : ℕ) (root : List ONode) : List (List ONode) :=
  tablesAux fuel [root]

/-- One node of phase 1 of `Octree.pack`: skip branches, empty tuples
and already-seen tuples; record a new tuple at the running
`free_list_offset` and advance it by `2*(len+1)` bytes. -/
def plStep (st : List (List ℕ × ℕ) × ℕ) (n : ONode) : List (List ℕ × ℕ) × ℕ :=
  match n with
  | .branch _ => st
  | .leaf [] => st
  | .leaf indices =>
    if (st.1.lookup indices).isSome then st
    else (st.1 ++ [(indices, st.2)], st.2 + 2 * (indices.length + 1))

/-- Phase 1 of `Octree.pack`: walk the tables, assigning each non-empty,
not-yet-seen index tuple the running `free_list_offset`.  The
`OrderedDict` is an association list in insertion order; the returned
`ℕ` is the final `free_list_offset`. -/
def packLists (tables : List (List ONode)) : List (List ℕ × ℕ) × ℕ :=
  tables.foldl (fun st t => t.foldl plStep st) ([], 0)

/-- The offset looked up for a leaf's tuple during emission.  The empty
tuple was assigned `free_list_offset - 2` (as a Python int, possibly
`-2`); a non-empty tuple is present in the map whenever the tables came
from phase 1 over the same tree (the `getD 0` default is unreachable
there). -/
def listOffsetOf (offs : List (List ℕ × ℕ)) (free : ℕ) (indices : List ℕ) : ℤ :=
  if indices = [] then (free : ℤ) - 2 else ((offs.lookup indices).getD 0 : ℤ)

/-- Phase 2 of `Octree.pack`: the `u32` entry values of all tables, in
write order.  State: accumulated entries, `branch_base`,
`free_branch_offset`. -/
def packEntries (tables : List (List ONode)) : List ℤ :=
  let lists := packLists tables
  let list_base : ℤ := 4 * ((tables.map List.length).sum : ℕ)
  (tables.foldl (fun (st : List ℤ × ℤ × ℤ) t =>
    let inner := t.foldl (fun (p : List ℤ × ℤ × ℤ) n =>
      match n with
      | .leaf indices =>
        (p.1 ++ [Int.lor 0x80000000 (list_base + listOffsetOf lists.1 lists.2 indices - 2 - p.2.1)],
         p.2.1, p.2.2)
      | .branch cs => (p.1 ++ [p.2.2 - p.2.1], p.2.1, p.2.2 + 4 * cs.length)) st
    (inner.1, inner.2.1 + 4 * t.length, inner.2.2))
    ([], 0, 4 * ((tables.headD []).length : ℕ))).1

/-- The `u16` words of the index-list region: for each stored tuple, the
`index + 1` values followed by the terminating zero. -/
def encList (indices : List ℕ) : List ℕ := indices.map (· + 1) ++ [0]

/-- The `u16` words emitted for an ordered collection of stored tuples. -/
def regionOf (offs : List (List ℕ × ℕ)) : List ℕ := offs.flatMap fun p => encList p.1

def regionWords (tables : List (List ONode)) : List ℕ := regionOf (packLists tables).1

/-! ## Byte sink (`btypes.py` stream; little-endian mode)

A write operation is recorded together with the position it was issued
at; `seek` only moves the cursor.  Float payloads carry the exact
rational value handed to `float32.pack`. -/

inductive WOp where
  | zeros (n : ℕ)
  | f32 (value : ℚ)
  | u16 (value : ℤ)
  | u32 (value : ℤ)
deriving DecidableEq, Repr

def WOp.size : WOp → ℕ
  | .zeros n => n
  | .f32 _ => 4
  | .u16 _ => 2
  | .u32 _ => 4

structure BStream where
  ops : List (ℕ × WOp)
  pos : ℕ
deriving DecidableEq, Repr

def BStream.empty : BStream := ⟨[], 0⟩

def BStream.write (s : BStream) (o : WOp) : BStream :=
  ⟨s.ops ++ [(s.pos, o)], s.pos + o.size⟩

def BStream.seek (s : BStream) (p : ℕ) : BStream := ⟨s.ops, p⟩

/-! ## Struct sizes (`btypes.py`, `StructMeta.__new__`)

`Struct.sizeof()` is the sum of the field sizes declared in the class
body; a nested struct field contributes its own `sizeof`. -/

inductive BTy where
  | u16T
  | u32T
  | f32T
deriving DecidableEq, Repr

def BTy.size : BTy → ℕ
  | .u16T => 2
  | .u32T => 4
  | .f32T => 4

def structSizeof (fields : List BTy) : ℕ := (fields.map BTy.size).sum

/-- Field list of `class Vector(Struct)`: three `float32`. -/
def vectorFieldTys : List BTy := [.f32T, .f32T, .f32T]

/-- Field list of `class Header(Struct)` in declaration order; the `base`
Vector field contributes its own three `float32` fields. -/
def headerFieldTys : List BTy :=
  [.u32T, .u32T, .u32T, .u32T, .f32T] ++ vectorFieldTys ++
  [.u32T, .u32T, .u32T, .u32T, .u32T, .u32T]

/-- Field list of `class Face(Struct)`. -/
def faceFieldTys : List BTy := [.f32T, .u16T, .u16T, .u16T, .u16T, .u16T, .u16T]

def headerSizeof : ℕ := structSizeof headerFieldTys

def faceSizeof : ℕ := structSizeof faceFieldTys

/-! ## KCL packer (`kcl.py`, `pack`) -/

/-- A face record as assembled by the loop in `pack`. -/
structure FaceR where
  length : ℚ
  p_index : ℕ
  n_index : ℕ
  a_index : ℕ
  b_index : ℕ
  c_index : ℕ
  group_index : ℕ
deriving DecidableEq, Repr

/-- The header record; offset fields are Python ints (`face_offset` is
the only one that is biased by a subtraction). -/
structure HeaderR where
  vertex_offset : ℕ
  normal_offset : ℕ
  face_offset : ℤ
  octree_offset : ℕ
  unknown0 : ℚ
  base : Vector
  x_mask : ℤ
  y_mask : ℤ
  z_mask : ℤ
  coordinate_shift : ℕ
  y_shift : ℕ
  z_shift : ℕ
deriving DecidableEq, Repr

def defaultHeader : HeaderR := ⟨0, 0, 0, 0, 0, ⟨0, 0, 0⟩, 0, 0, 0, 0, 0, 0⟩

def packVector (s : BStream) (v : Vector) : BStream :=
  ((s.write (.f32 v.x)).write (.f32 v.y)).write (.f32 v.z)

def packFace (s : BStream) (f : FaceR) : BStream :=
  ((((((s.write (.f32 f.length)).write (.u16 f.p_index)).write (.u16 f.n_index)).write
    (.u16 f.a_index)).write (.u16 f.b_index)).write (.u16 f.c_index)).write (.u16 f.group_index)

def packHeader (s : BStream) (h : HeaderR) : BStream :=
  (packVector ((((s.write (.u32 h.vertex_offset)).write (.u32 h.normal_offset)).write
      (.u32 h.face_offset)).write (.u32 h.octree_offset) |>.write (.f32 h.unknown0))
    h.base).write (.u32 h.x_mask) |>.write (.u32 h.y_mask) |>.write (.u32 h.z_mask)
    |>.write (.u32 h.coordinate_shift) |>.write (.u32 h.y_shift) |>.write (.u32 h.z_shift)

/-- The face-assembly loop of `pack`: for each triangle compute the edge
inward-normals with the abstract square root, weld position and normals,
and record the face.  Returns the face list and the two final welder
states. -/
def mkFaces (sq : ℚ → ℚ) (tris : List Triangle) (vw nw : VertexWelder) :
    List FaceR × VertexWelder × VertexWelder :=
  tris.foldl (fun (st : List FaceR × VertexWelder × VertexWelder) t =>
    let (faces, vw, nw) := st
    let a := (cross (t.u.sub t.w) t.n).unitW sq
    let b := (cross (t.v.sub t.u) t.n).unitW sq
    let c := (cross (t.w.sub t.v) t.n).unitW sq
    let len := dot (t.v.sub t.u) c
    let (vw, p_index) := vw.add t.u
    let (nw, n_index) := nw.add t.n
    let (nw, a_index) := nw.add a
    let (nw, b_index) := nw.add b
    let (nw, c_index) := nw.add c
    (faces ++ [⟨len, p_index, n_index, a_index, b_index, c_index, t.group_index⟩], vw, nw))
    ([], vw, nw)

/-- Python `~x`. -/
def pyNot (x : ℤ) : ℤ := -x - 1

/-- Python `x & 0xFFFFFFFF`: on two's-complement (arbitrary-precision)
integers this is exactly the Euclidean remainder modulo `2^32`. -/
def pyAnd32 (x : ℤ) : ℤ := x % (2 ^ 32 : ℤ)

/-- The header mask formula `~(width - 1) & 0xFFFFFFFF`. -/
def mask32 (width : ℕ) : ℤ := pyAnd32 (pyNot ((width : ℤ) - 1))

/-- `int(ceil(len(triangles)/64))` and `int(ceil(4*len(triangles)/64))`. -/
def ceilDiv64 (n : ℕ) : ℕ := (n + 63) / 64

inductive PErr where
  | tooManyFaces
  | tooManyVertices
  | tooManyNormals
deriving DecidableEq, Repr

instance {ε α : Type} [DecidableEq ε] [DecidableEq α] : DecidableEq (Except ε α) := fun a b =>
  match a, b with
  | .ok x, .ok y =>
    if h : x = y then isTrue (by rw [h]) else isFalse (fun hh => h (by cases hh; rfl))
  | .error x, .error y =>
    if h : x = y then isTrue (by rw [h]) else isFalse (fun hh => h (by cases hh; rfl))
  | .ok _, .error _ => isFalse nofun
  | .error _, .ok _ => isFalse nofun

structure PackRes where
  s : BStream
  out : Except PErr HeaderR
deriving DecidableEq, Repr

/-- `octree_offset = stream.tell(); octree = Octree(...); Octree.pack(...)`:
the octree region writes, as `u32` entries then `u16` list words.  The
table fuel is one more than the node-construction fuel, which bounds the
tree depth. -/
def packOctreeS (s : BStream) (o : OctreeT) : BStream :=
  let tables := otables (nodeFuel o.base_width + 1) o.children
  let s1 := (packEntries tables).foldl (fun st v => st.write (.u32 v)) s
  (regionWords tables).foldl (fun st v => st.write (.u16 (v : ℤ))) s1

/-- The write phase of `kcl.pack` (everything after the three overflow
checks): reserve the header block, emit vertices, normals, faces and the
octree while recording offsets, then back-patch the header at offset 0.
Returns the final stream and the header record. -/
def packBody (s0 : BStream) (tris : List Triangle) (max_triangles min_width : ℕ)
    (faces : List FaceR) (vw nw : VertexWelder) : BStream × HeaderR :=
  let s1 := s0.write (.zeros headerSizeof)
  let vertex_offset := s1.pos
  let s2 := vw.vertices.foldl packVector s1
  let normal_offset := s2.pos
  let s3 := nw.vertices.foldl packVector s2
  let face_offset : ℤ := (s3.pos : ℤ) - (faceSizeof : ℤ)
  let s4 := faces.foldl packFace s3
  let octree_offset := s4.pos
  let oct := Octree.init tris max_triangles min_width
  let s5 := packOctreeS s4 oct
  let hdr : HeaderR :=
    { vertex_offset := vertex_offset
      normal_offset := normal_offset
      face_offset := face_offset
      octree_offset := octree_offset
      unknown0 := 40
      base := oct.base
      x_mask := mask32 oct.width_x
      y_mask := mask32 oct.width_y
      z_mask := mask32 oct.width_z
      coordinate_shift := floorLog2 oct.base_width
      y_shift := floorLog2 oct.nx
      z_shift := floorLog2 oct.nx + floorLog2 oct.ny }
  let s6 := packHeader (s5.seek 0) hdr
  (s6, hdr)

/-- The face-assembly result of `pack`: welders created with threshold
`2**(-1)` and `int(ceil(len/64))` buckets for positions, `2**(-22)` and
`int(ceil(4*len/64))` buckets for normals. -/
def packFacesOf (sq : ℚ → ℚ) (tris : List Triangle) :
    List FaceR × VertexWelder × VertexWelder :=
  mkFaces sq tris (VertexWelder.init (1 / 2) (ceilDiv64 tris.length))
    (VertexWelder.init (1 / 4194304) (ceilDiv64 (4 * tris.length)))

/-- `kcl.pack(stream, triangles, max_triangles, min_width)`.  On a
`GeometryOverflowError` the result carries the error and the sink as it
was at raise time (the three checks run before any write, so it is the
input sink unchanged); on success it carries the back-patched header. -/
def pack (sq : ℚ → ℚ) (s0 : BStream) (tris : List Triangle)
    (max_triangles min_width : ℕ) : PackRes :=
  if 0xFFFF - 1 ≤ tris.length then ⟨s0, .error .tooManyFaces⟩ else
  if 0xFFFF ≤ (packFacesOf sq tris).2.1.vertices.length then ⟨s0, .error .tooManyVertices⟩ else
  if 0xFFFF ≤ (packFacesOf sq tris).2.2.vertices.length then ⟨s0, .error .tooManyNormals⟩ else
  let b := packBody s0 tris max_triangles min_width (packFacesOf sq tris).1
    (packFacesOf sq tris).2.1 (packFacesOf sq tris).2.2
  ⟨b.1, .ok b.2⟩

/-! ## BCSV sidecar (`bcsv.py`) as bytes

The surface-type table (`SurfaceTypeList`) consists of five `UINT32`
fields sharing offset 0, so the byte-exact model below implements the
`UINT32` row path of `ListBase.pack`/`unpack`; the other data types
(float/sint/string) never occur in the tables this program writes and
their dispatch arms are therefore not modelled.  Bytes are natural
numbers below 256, little-endian as in the program's stream mode. -/

namespace bcsv

/-- `calculate_name_hash` (`h*31 + ord(c)` mod 2^32). -/
def calculate_name_hash (name : String) : ℕ :=
  name.toList.foldl (fun h c => (h * 31 + c.toNat) % 4294967296) 0

/-- `class Field(Struct)` of `bcsv.py` (the packed descriptor fields). -/
structure BField where
  name_hash : ℕ
  mask : ℕ
  offset : ℕ
  shift : ℕ
  data_type : ℕ
deriving DecidableEq, Repr

/-- `Field.data_size` (UINT32=0, FLOAT32=2, SINT32=3 → 4; SINT16=4 → 2;
SINT8=5 → 1; STRING=6 → 4). -/
def BField.data_size (f : BField) : ℕ :=
  if f.data_type = 4 then 2 else if f.data_type = 5 then 1 else 4

/-- The five fields of `SurfaceTypeList`, in declaration order
(`UINT32` data type is 0). -/
def stFields : List BField :=
  [⟨calculate_name_hash "camera_id", 0x000000FF, 0, 0, 0⟩,
   ⟨calculate_name_hash "Sound_code", 0x00007F00, 0, 8, 0⟩,
   ⟨calculate_name_hash "Floor_code", 0x01F8000, 0, 15, 0⟩,
   ⟨calculate_name_hash "Wall_code", 0x01E00000, 0, 21, 0⟩,
   ⟨calculate_name_hash "Camera_through", 0x02000000, 0, 25, 0⟩]

/-- `btypes.align_length`. -/
def align_length (length boundary : ℕ) : ℕ := ((length + boundary - 1) / boundary) * boundary

/-- `entry_size = align_length(max(offset + data_size), 4)`. -/
def entrySizeOf (fields : List BField) : ℕ :=
  align_length ((fields.map fun f => f.offset + f.data_size).foldl max 0) 4

def u8b (n : ℕ) : List ℕ := [n % 256]

def u16b (n : ℕ) : List ℕ := [n % 256, n / 256 % 256]

def u32b (n : ℕ) : List ℕ := [n % 256, n / 256 % 256, n / 65536 % 256, n / 16777216 % 256]

/-- Read a little-endian `u32` out of a byte list (missing bytes read 0;
the program never reads past what it wrote). -/
def readU32 (bs : List ℕ) (o : ℕ) : ℕ :=
  bs.getD o 0 + 256 * bs.getD (o + 1) 0 + 65536 * bs.getD (o + 2) 0 +
    16777216 * bs.getD (o + 3) 0

def readU16 (bs : List ℕ) (o : ℕ) : ℕ := bs.getD o 0 + 256 * bs.getD (o + 1) 0

def readU8 (bs : List ℕ) (o : ℕ) : ℕ := bs.getD o 0

/-- Write a little-endian `u32` into a byte buffer at offset `o`. -/
def bufWriteU32 (b : List ℕ) (o v : ℕ) : List ℕ :=
  (((b.set o (v % 256)).set (o + 1) (v / 256 % 256)).set (o + 2) (v / 65536 % 256)).set
    (o + 3) (v / 16777216 % 256)

/-- The `UINT32` arm of the row-encoding loop of `ListBase.pack`: for each
field, `value = (value << shift) | current`, read-modify-write at the
field's offset into the zero-initialised entry block. -/
def encodeRow (entry_size : ℕ) (fields : List BField) (vals : List ℕ) : List ℕ :=
  (fields.zip vals).foldl (fun buf fv =>
    bufWriteU32 buf fv.1.offset ((fv.2 <<< fv.1.shift) ||| readU32 buf fv.1.offset))
    (List.replicate entry_size 0)

/-- Packed bytes of one field descriptor. -/
def fieldBytes (f : BField) : List ℕ :=
  u32b f.name_hash ++ u32b f.mask ++ u16b f.offset ++ u8b f.shift ++ u8b f.data_type

/-- `align(stream, 0x20, b'\x40')`: pad to the next 32-byte boundary with
`0x40`, nothing when already aligned. -/
def padAlign (len : ℕ) : List ℕ :=
  if len % 32 = 0 then [] else List.replicate (32 - len % 32) 0x40

/-- `SurfaceTypeList.pack` output: header, field descriptors, rows (the
string pool is empty as no field is a string), final padding.  Row values
are the field values in declaration order (`camera_through` already
converted to its Python int, `True = 1`). -/
def stPack (rows : List (List ℕ)) : List ℕ :=
  let body := u32b rows.length ++ u32b stFields.length ++
    u32b (16 + stFields.length * 12) ++ u32b (entrySizeOf stFields) ++
    stFields.flatMap fieldBytes ++
    rows.flatMap (encodeRow (entrySizeOf stFields) stFields)
  body ++ padAlign body.length

def parseField (bs : List ℕ) (o : ℕ) : BField :=
  ⟨readU32 bs o, readU32 bs (o + 4), readU16 bs (o + 8), readU8 bs (o + 10),
    readU8 bs (o + 11)⟩

/-- The `UINT32` arm of the row-decoding loop of `ListBase.unpack`:
`(raw & mask) >> shift` per field. -/
def decodeRow (fields : List BField) (block : List ℕ) : List ℕ :=
  fields.map fun f => (readU32 block f.offset &&& f.mask) >>> f.shift

/-- `SurfaceTypeList.unpack`: parse the header and descriptors; as in
`ObjectList.create_list`, a descriptor list differing from the class's
raises `FormatError` (modelled as `Except.error`); then decode each row. -/
def stUnpack (bs : List ℕ) : Except Unit (List (List ℕ)) :=
  let entry_count := readU32 bs 0
  let field_count := readU32 bs 4
  let entry_offset := readU32 bs 8
  let entry_size := readU32 bs 12
  let fields := (List.range field_count).map fun i => parseField bs (16 + 12 * i)
  if fields = stFields then
    .ok ((List.range entry_count).map fun i =>
      decodeRow fields ((bs.drop (entry_offset + i * entry_size)).take entry_size))
  else
    .error ()

/-- The 72 bytes following the entry count: field count, entry offset,
entry size, and the five field descriptors. -/
def stDescBytes : List ℕ := u32b 5 ++ u32b 76 ++ u32b 4 ++ stFields.flatMap fieldBytes

end bcsv

/-! ## Concrete example inputs used by witnesses and counterexamples -/

/-- A single well-formed triangle (unit right triangle in the z = 0
plane, with its exact unit normal). -/
def exTriangle : Triangle := ⟨⟨0, 0, 0⟩, ⟨1, 0, 0⟩, ⟨0, 1, 0⟩, ⟨0, 0, 1⟩, 0⟩

/-- A concrete stand-in for the abstract square root in witnesses (none
of the verified properties depend on its values). -/
def sqId : ℚ → ℚ := fun q => q

/-- The header produced by packing `[exTriangle]` with
`max_triangles = 25`, `min_width = 8` (verified by computation in the
witnesses). -/
def exHeader : HeaderR :=
  { vertex_offset := 56, normal_offset := 68, face_offset := 100, octree_offset := 132
    unknown0 := 40, base := ⟨0, 0, 0⟩
    x_mask := 0xFFFFFFF8, y_mask := 0xFFFFFFF8, z_mask := 0xFFFFFFF8
    coordinate_shift := 3, y_shift := 0, z_shift := 0 }

/-! ## Claim 1: face-count cap -/

/-- C1 counterexample: with exactly 65534 triangles, `pack` raises
`GeometryOverflowError('too many faces')` (the guard is
`len(triangles) >= 0xFFFF - 1`, which 65534 satisfies) — contradicting
the claim that 65534 triangles succeed. -/
theorem claim1_cex :
    (pack sqId BStream.empty (List.replicate 65534 defaultTriangle) 25 8).out
      = .error .tooManyFaces := by
  rw [pack, if_pos (by rw [List.length_replicate])]

/-- C1 (amended): `pack` raises `too many faces` exactly when the
triangle count is at least `0xFFFF - 1 = 65534`; with 65533 or fewer
triangles no face-count overflow is raised (65535 in particular still
raises). -/
theorem claim1_face_count_cap (sq : ℚ → ℚ) (s0 : BStream) (tris : List Triangle)
    (max_triangles min_width : ℕ) :
    (pack sq s0 tris max_triangles min_width).out = .error .tooManyFaces ↔
      0xFFFF - 1 ≤ tris.length := by
  by_cases h1 : 0xFFFF - 1 ≤ tris.length
  · rw [pack, if_pos h1]
    exact iff_of_true rfl h1
  by_cases h2 : 0xFFFF ≤ (packFacesOf sq tris).2.1.vertices.length
  · rw [pack, if_neg h1, if_pos h2]
    exact iff_of_false (fun h => by cases h) h1
  by_cases h3 : 0xFFFF ≤ (packFacesOf sq tris).2.2.vertices.length
  · rw [pack, if_neg h1, if_neg h2, if_pos h3]
    exact iff_of_false (fun h => by cases h) h1
  · rw [pack, if_neg h1, if_neg h2, if_neg h3]
    exact iff_of_false (fun h => by cases h) h1

/-! ## Claim 10: no partial output on overflow -/

/-- C10: whenever `pack` raises `GeometryOverflowError` — for any of the
three reasons — the sink is exactly the input sink: all three checks run
before the first write. -/
theorem claim10_no_partial_output (sq : ℚ → ℚ) (s0 : BStream) (tris : List Triangle)
    (max_triangles min_width : ℕ) (e : PErr)
    (herr : (pack sq s0 tris max_triangles min_width).out = .error e) :
    (pack sq s0 tris max_triangles min_width).s = s0 := by
  by_cases h1 : 0xFFFF - 1 ≤ tris.length
  · rw [pack, if_pos h1]
  by_cases h2 : 0xFFFF ≤ (packFacesOf sq tris).2.1.vertices.length
  · rw [pack, if_neg h1, if_pos h2]
  by_cases h3 : 0xFFFF ≤ (packFacesOf sq tris).2.2.vertices.length
  · rw [pack, if_neg h1, if_neg h2, if_pos h3]
  · rw [pack, if_neg h1, if_neg h2, if_neg h3] at herr
    exact absurd herr (fun h => by cases h)

/-- C10 witness: a concrete failing `pack` call (face-count overflow)
whose sink is returned unchanged. -/
theorem claim10_witness :
    (pack sqId BStream.empty (List.replicate 65534 defaultTriangle) 25 8).out
      = .error PErr.tooManyFaces ∧
    (pack sqId BStream.empty (List.replicate 65534 defaultTriangle) 25 8).s
      = BStream.empty :=
  ⟨by rw [pack, if_pos (by rw [List.length_replicate])],
   claim10_no_partial_output sqId BStream.empty _ 25 8 PErr.tooManyFaces
     (by rw [pack, if_pos (by rw [List.length_replicate])])⟩

/-! ## Claim 2: header size -/

/-- The positioned write operations `Header.pack` issues from stream
position `p` (4 offsets, `unknown0`, the 3 components of `base`, 3
masks, 3 shifts — 14 writes, 56 bytes). -/
def headerOpsFrom (p : ℕ) (h : HeaderR) : List (ℕ × WOp) :=
  [(p, .u32 h.vertex_offset), (p + 4, .u32 h.normal_offset), (p + 8, .u32 h.face_offset),
   (p + 12, .u32 h.octree_offset), (p + 16, .f32 h.unknown0),
   (p + 20, .f32 h.base.x), (p + 24, .f32 h.base.y), (p + 28, .f32 h.base.z),
   (p + 32, .u32 h.x_mask), (p + 36, .u32 h.y_mask), (p + 40, .u32 h.z_mask),
   (p + 44, .u32 h.coordinate_shift), (p + 48, .u32 h.y_shift), (p + 52, .u32 h.z_shift)]

theorem packHeader_ops (s : BStream) (h : HeaderR) :
    (packHeader s h).ops = s.ops ++ headerOpsFrom s.pos h := by
  simp [packHeader, packVector, BStream.write, headerOpsFrom, WOp.size]

theorem packVector_ops (s : BStream) (v : Vector) :
    ∃ ex, (packVector s v).ops = s.ops ++ ex :=
  ⟨[(s.pos, .f32 v.x), (s.pos + 4, .f32 v.y), (s.pos + 8, .f32 v.z)],
    by simp [packVector, BStream.write, WOp.size]⟩

theorem foldl_append_ops {α : Type} (g : BStream → α → BStream)
    (hg : ∀ s a, ∃ ex, (g s a).ops = s.ops ++ ex) :
    ∀ (l : List α) (s : BStream), ∃ ex, (l.foldl g s).ops = s.ops ++ ex := by
  intro l
  induction l with
  | nil => exact fun s => ⟨[], by simp⟩
  | cons a t ih =>
    intro s
    obtain ⟨e1, h1⟩ := hg s a
    obtain ⟨e2, h2⟩ := ih (g s a)
    exact ⟨e1 ++ e2, by simp [h2, h1]⟩

theorem packOctreeS_ops (s : BStream) (o : OctreeT) :
    ∃ ex, (packOctreeS s o).ops = s.ops ++ ex := by
  unfold packOctreeS
  obtain ⟨e1, h1⟩ := foldl_append_ops (fun st v => st.write (.u32 v))
    (fun s a => ⟨_, rfl⟩) (packEntries (otables (nodeFuel o.base_width + 1) o.children)) s
  obtain ⟨e2, h2⟩ := foldl_append_ops (fun st v => st.write (.u16 (v : ℤ)))
    (fun s a => ⟨_, rfl⟩) (regionWords (otables (nodeFuel o.base_width + 1) o.children)) _
  exact ⟨e1 ++ e2, by rw [h2, h1, List.append_assoc]⟩

/-- On success `pack` returns exactly the `packBody` result (the welders
being those of `mkFaces` on the fresh per-call welders). -/
theorem pack_ok_shape (sq : ℚ → ℚ) (s0 : BStream) (tris : List Triangle)
    (max_triangles min_width : ℕ) (hdr : HeaderR)
    (hok : (pack sq s0 tris max_triangles min_width).out = .ok hdr) :
    pack sq s0 tris max_triangles min_width =
      ⟨(packBody s0 tris max_triangles min_width (packFacesOf sq tris).1
          (packFacesOf sq tris).2.1 (packFacesOf sq tris).2.2).1, .ok hdr⟩ ∧
    hdr = (packBody s0 tris max_triangles min_width (packFacesOf sq tris).1
        (packFacesOf sq tris).2.1 (packFacesOf sq tris).2.2).2 := by
  by_cases h1 : 0xFFFF - 1 ≤ tris.length
  · rw [pack, if_pos h1] at hok
    exact absurd hok (fun h => by cases h)
  by_cases h2 : 0xFFFF ≤ (packFacesOf sq tris).2.1.vertices.length
  · rw [pack, if_neg h1, if_pos h2] at hok
    exact absurd hok (fun h => by cases h)
  by_cases h3 : 0xFFFF ≤ (packFacesOf sq tris).2.2.vertices.length
  · rw [pack, if_neg h1, if_neg h2, if_pos h3] at hok
    exact absurd hok (fun h => by cases h)
  · rw [pack, if_neg h1, if_neg h2, if_neg h3] at hok ⊢
    have hb : (packBody s0 tris max_triangles min_width (packFacesOf sq tris).1
        (packFacesOf sq tris).2.1 (packFacesOf sq tris).2.2).2 = hdr := by
      exact Except.ok.inj hok
    exact ⟨by rw [← hb], hb.symm⟩

/-- C2 counterexample: `Header.sizeof()` — the sum of the declared field
sizes, the `base` Vector contributing its three `float32` — is 56, not
60; concretely, a successful `pack` reserves a 56-byte zero block at
offset 0. -/
theorem claim2_cex :
    headerSizeof = 56 ∧ ¬ headerSizeof = 60 ∧
    (pack sqId BStream.empty [exTriangle] 25 8).s.ops.headD (0, .zeros 0)
      = (0, .zeros 56) := by
  refine ⟨by decide, by decide, by decide⟩

theorem packFace_ops (s : BStream) (f : FaceR) :
    ∃ ex, (packFace s f).ops = s.ops ++ ex :=
  ⟨[(s.pos, .f32 f.length), (s.pos + 4, .u16 f.p_index), (s.pos + 6, .u16 f.n_index),
    (s.pos + 8, .u16 f.a_index), (s.pos + 10, .u16 f.b_index), (s.pos + 12, .u16 f.c_index),
    (s.pos + 14, .u16 f.group_index)],
    by simp [packFace, BStream.write, WOp.size]⟩

/-- The write trace of `packBody` on a fresh sink: the 56-byte zero
block at offset 0, the body, then the back-patched header fields at
offsets 0..52. -/
theorem packBody_ops (tris : List Triangle) (max_triangles min_width : ℕ)
    (faces : List FaceR) (vw nw : VertexWelder) :
    ∃ mid, (packBody BStream.empty tris max_triangles min_width faces vw nw).1.ops
      = (0, WOp.zeros headerSizeof) :: mid ++
          headerOpsFrom 0 (packBody BStream.empty tris max_triangles min_width faces vw nw).2 := by
  generalize hh : (packBody BStream.empty tris max_triangles min_width faces vw nw).2 = hdr2
  simp only [packBody] at hh
  obtain ⟨e2, h2⟩ := foldl_append_ops packVector packVector_ops vw.vertices
    (BStream.empty.write (WOp.zeros headerSizeof))
  obtain ⟨e3, h3⟩ := foldl_append_ops packVector packVector_ops nw.vertices
    (vw.vertices.foldl packVector (BStream.empty.write (WOp.zeros headerSizeof)))
  obtain ⟨e4, h4⟩ := foldl_append_ops packFace packFace_ops faces
    (nw.vertices.foldl packVector (vw.vertices.foldl packVector
      (BStream.empty.write (WOp.zeros headerSizeof))))
  obtain ⟨e5, h5⟩ := packOctreeS_ops
    (faces.foldl packFace (nw.vertices.foldl packVector (vw.vertices.foldl packVector
      (BStream.empty.write (WOp.zeros headerSizeof)))))
    (Octree.init tris max_triangles min_width)
  refine ⟨e2 ++ e3 ++ e4 ++ e5, ?_⟩
  rw [← hh]
  show (packHeader (BStream.seek (packOctreeS (faces.foldl packFace
      (nw.vertices.foldl packVector (vw.vertices.foldl packVector
        (BStream.empty.write (WOp.zeros headerSizeof)))))
      (Octree.init tris max_triangles min_width)) 0) _).ops = _
  rw [packHeader_ops]
  simp only [BStream.seek]
  rw [h5, h4, h3, h2]
  simp [BStream.write, BStream.empty]

/-- C2 (amended): the header is exactly 56 bytes: `pack` reserves
`Header.sizeof() = 56` zero bytes at offset 0 and the final back-patch
writes the 14 header fields at offsets 0..52, 56 bytes in total. -/
theorem claim2_header_size :
    headerSizeof = 56 ∧
    ∀ (sq : ℚ → ℚ) (tris : List Triangle) (max_triangles min_width : ℕ) (hdr : HeaderR),
      (pack sq BStream.empty tris max_triangles min_width).out = .ok hdr →
      ∃ mid, (pack sq BStream.empty tris max_triangles min_width).s.ops
          = (0, WOp.zeros headerSizeof) :: mid ++ headerOpsFrom 0 hdr ∧
        ((headerOpsFrom 0 hdr).map fun p => p.2.size).sum = headerSizeof ∧
        (headerOpsFrom 0 hdr).map Prod.fst
          = [0, 4, 8, 12, 16, 20, 24, 28, 32, 36, 40, 44, 48, 52] := by
  refine ⟨by decide, ?_⟩
  intro sq tris mt mw hdr hok
  obtain ⟨hres, hdr_eq⟩ := pack_ok_shape sq BStream.empty tris mt mw hdr hok
  obtain ⟨mid, hmid⟩ := packBody_ops tris mt mw (packFacesOf sq tris).1
    (packFacesOf sq tris).2.1 (packFacesOf sq tris).2.2
  refine ⟨mid, ?_, by simp [headerOpsFrom, WOp.size, headerSizeof, structSizeof,
    headerFieldTys, vectorFieldTys, BTy.size], by simp [headerOpsFrom]⟩
  rw [hres, hdr_eq]
  exact hmid

/-- C2 witness: the single-triangle pack, with its concretely computed
header, satisfies the amended claim. -/
theorem claim2_witness :
    (pack sqId BStream.empty [exTriangle] 25 8).out = .ok exHeader ∧
    ∃ mid, (pack sqId BStream.empty [exTriangle] 25 8).s.ops
        = (0, WOp.zeros headerSizeof) :: mid ++ headerOpsFrom 0 exHeader :=
  ⟨by decide, match claim2_header_size.2 sqId [exTriangle] 25 8 exHeader (by decide) with
    | ⟨mid, h1, _, _⟩ => ⟨mid, h1⟩⟩

/-! ## Claim 4: welder tolerance bound -/

theorem welderWF_init (t : ℚ) (bucket_count : ℕ) (h : 0 < bucket_count) :
    WelderWF (VertexWelder.init t bucket_count) := by
  refine ⟨by simpa [VertexWelder.init] using h, ?_⟩
  intro b hb i hi
  rw [VertexWelder.init] at hb
  simp only at hb
  rw [List.eq_of_mem_replicate hb] at hi
  cases hi

/-- Every index stored in the bucket looked up by `getD` is a valid
vertex index in a well-formed welder. -/
theorem welder_bucket_bound (w : VertexWelder) (hwf : WelderWF w) (h : ℕ) :
    ∀ i ∈ w.buckets.getD h [], i < w.vertices.length := by
  intro i hi
  by_cases hlt : h < w.buckets.length
  · rw [List.getD_eq_getElem w.buckets [] hlt] at hi
    exact hwf.2 _ (List.getElem_mem hlt) i hi
  · rw [List.getD_eq_default w.buckets [] (not_lt.mp hlt)] at hi
    cases hi

theorem welderWF_add (w : VertexWelder) (v : Vector) (hwf : WelderWF w) :
    WelderWF (w.add v).1 := by
  unfold VertexWelder.add
  cases hfind : w.findClose v with
  | some index => exact hwf
  | none =>
    refine ⟨by simpa using hwf.1, ?_⟩
    intro b hb i hi
    simp only at hb
    rcases List.mem_or_eq_of_mem_set hb with hold | hnew
    · have := hwf.2 b hold i hi
      simp only [List.length_append, List.length_cons, List.length_nil]
      omega
    · rw [hnew] at hi
      rcases List.mem_append.mp hi with hi1 | hi2
      · have := welder_bucket_bound w hwf _ i hi1
        simp only [List.length_append, List.length_cons, List.length_nil]
        omega
      · simp only [List.mem_singleton] at hi2
        simp only [hi2, List.length_append, List.length_cons, List.length_nil]
        omega

/-- C4: for a well-formed welder with positive threshold, `add v` returns
an index into the kept-vertex list whose vertex is strictly within the
threshold of `v` on each axis (on a miss `v` itself is appended, making
the bound trivial). -/
theorem claim4_welder_bound (w : VertexWelder) (v : Vector)
    (hwf : WelderWF w) (ht : 0 < w.threshold) :
    (w.add v).2 < (w.add v).1.vertices.length ∧
    |((w.add v).1.vertices.getD (w.add v).2 ⟨0, 0, 0⟩).x - v.x| < w.threshold ∧
    |((w.add v).1.vertices.getD (w.add v).2 ⟨0, 0, 0⟩).y - v.y| < w.threshold ∧
    |((w.add v).1.vertices.getD (w.add v).2 ⟨0, 0, 0⟩).z - v.z| < w.threshold := by
  unfold VertexWelder.add
  cases hfind : w.findClose v with
  | some index =>
    simp only
    unfold VertexWelder.findClose at hfind
    obtain ⟨c, hcmem, hcell⟩ := List.exists_of_findSome?_eq_some hfind
    have hpmem := List.mem_of_find?_eq_some hcell
    have hpred := List.find?_some hcell
    cases hget : w.vertices.get? index with
    | none => rw [hget] at hpred; cases hpred
    | some u =>
      rw [hget] at hpred
      obtain ⟨hxy, hyz, hzz⟩ := of_decide_eq_true hpred
      obtain ⟨hlt, hu⟩ := List.get?_eq_some.mp hget
      have hgetD : w.vertices.getD index ⟨0, 0, 0⟩ = u := by
        rw [List.getD_eq_getElem w.vertices _ hlt]
        simpa [List.get_eq_getElem] using hu
      rw [hgetD]
      exact ⟨hlt, by rw [abs_sub_comm]; exact hxy, by rw [abs_sub_comm]; exact hyz,
        by rw [abs_sub_comm]; exact hzz⟩
  | none =>
    simp only
    have hlen : (w.vertices ++ [v]).length = w.vertices.length + 1 := by simp
    have hgetD : (w.vertices ++ [v]).getD w.vertices.length ⟨0, 0, 0⟩ = v := by
      rw [List.getD_eq_getElem?_getD, List.getElem?_concat_length]
      rfl
    rw [hgetD, hlen]
    refine ⟨by omega, ?_, ?_, ?_⟩ <;> simpa using ht


/-- C4 witness: a fresh single-bucket welder with threshold 1/2 accepts
a vertex and returns a valid index. -/
theorem claim4_witness :
    WelderWF (VertexWelder.init (1 / 2) 1) ∧
    (0 : ℚ) < (VertexWelder.init (1 / 2) 1).threshold ∧
    ((VertexWelder.init (1 / 2) 1).add ⟨1, 2, 3⟩).2 <
      ((VertexWelder.init (1 / 2) 1).add ⟨1, 2, 3⟩).1.vertices.length :=
  ⟨by decide, by decide,
   (claim4_welder_bound (VertexWelder.init (1 / 2) 1) ⟨1, 2, 3⟩ (by decide) (by decide)).1⟩

/-! ## Power-of-two logarithm lemmas -/

theorem clog2F_two_pow : ∀ (f k : ℕ), k ≤ f → clog2F f (2 ^ k) = k := by
  intro f
  induction f with
  | zero =>
    intro k hk
    have hk0 : k = 0 := by omega
    subst hk0
    rfl
  | succ f ih =>
    intro k hk
    cases k with
    | zero => simp [clog2F]
    | succ k =>
      rw [clog2F, if_neg (by have := Nat.one_lt_two_pow_iff.mpr (Nat.succ_ne_zero k); omega)]
      have hstep : (2 ^ (k + 1) + 1) / 2 = 2 ^ k := by
        rw [pow_succ]
        omega
      rw [hstep, ih k (by omega)]

theorem ceilLog2_two_pow (k : ℕ) : ceilLog2 (2 ^ k) = k :=
  clog2F_two_pow (2 ^ k) k (Nat.le_of_lt (Nat.lt_two_pow k))

theorem flog2F_two_pow : ∀ (f k : ℕ), k ≤ f → flog2F f (2 ^ k) = k := by
  intro f
  induction f with
  | zero =>
    intro k hk
    have hk0 : k = 0 := by omega
    subst hk0
    rfl
  | succ f ih =>
    intro k hk
    cases k with
    | zero => simp [flog2F]
    | succ k =>
      rw [flog2F, if_neg (by have := Nat.one_lt_two_pow_iff.mpr (Nat.succ_ne_zero k); omega)]
      have hstep : 2 ^ (k + 1) / 2 = 2 ^ k := by
        rw [pow_succ]
        omega
      rw [hstep, ih k (by omega)]

theorem floorLog2_two_pow (k : ℕ) : floorLog2 (2 ^ k) = k :=
  flog2F_two_pow (2 ^ k) k (Nat.le_of_lt (Nat.lt_two_pow k))

/-! ## Claim 5: node structure -/

/-- Specification of one `Octree.node` call: the node filters its
candidate set by `tribox_overlap` against its own cube and is a leaf
holding exactly the filtered set if and only if the filtered count is at
most `max_triangles` or the half width is below `min_width`; otherwise
it is a branch of exactly 8 children, each recursively satisfying the
specification over the octant cubes at half width with the filtered set
as candidates. -/
inductive NodeSpec (tris : List Triangle) (max_triangles min_width : ℕ) :
    Vector → ℚ → List ℕ → ONode → Prop where
  | leaf : ∀ b w S,
      (tbFilter tris S b w).length ≤ max_triangles ∨ w / 2 < (min_width : ℚ) →
      NodeSpec tris max_triangles min_width b w S (.leaf (tbFilter tris S b w))
  | branch : ∀ b w S cs,
      max_triangles < (tbFilter tris S b w).length → (min_width : ℚ) ≤ w / 2 →
      cs.length = 8 →
      (∀ m, m < 8 → NodeSpec tris max_triangles min_width
        (b.add (Vector.smul (w / 2) (octVec m))) (w / 2) (tbFilter tris S b w)
        (cs.getD m (.leaf []))) →
      NodeSpec tris max_triangles min_width b w S (.branch cs)

theorem range8_map_getD (f : ℕ → ONode) (m : ℕ) (hm : m < 8) :
    ((List.range 8).map f).getD m (.leaf []) = f m := by
  rw [List.getD_eq_getElem _ _ (by simpa using hm)]
  simp

/-- C5: every node `Octree.node` builds over a power-of-two width (the
only widths the program uses, with `min_width ≥ 1` and sufficient fuel,
as supplied by the grid construction) satisfies `NodeSpec`, and the
filtered set is an order-preserving sublist of the candidate set. -/
theorem claim5_node_structure (tris : List Triangle) (max_triangles min_width : ℕ)
    (hmw : 1 ≤ min_width) (k : ℕ) :
    ∀ (fuel : ℕ), k < fuel → ∀ (b : Vector) (S : List ℕ),
      NodeSpec tris max_triangles min_width b ((2 : ℚ) ^ k) S
        (nodeF tris max_triangles min_width fuel b ((2 : ℚ) ^ k) S) ∧
      (tbFilter tris S b ((2 : ℚ) ^ k)).Sublist S := by
  have hmwq : (1 : ℚ) ≤ (min_width : ℚ) := by exact_mod_cast hmw
  induction k with
  | zero =>
    intro fuel hf b S
    cases fuel with
    | zero => omega
    | succ f =>
      simp only [nodeF]
      rw [if_neg (fun hc => absurd hc.2 (by push_neg; norm_num; linarith))]
      exact ⟨NodeSpec.leaf b _ S (Or.inr (by norm_num; linarith)), List.filter_sublist S⟩
  | succ k ih =>
    intro fuel hf b S
    cases fuel with
    | zero => omega
    | succ f =>
      simp only [nodeF]
      have h2 : ((2 : ℚ) ^ (k + 1)) / 2 = (2 : ℚ) ^ k := by
        rw [pow_succ]
        ring
      by_cases hcond : max_triangles < (tbFilter tris S b ((2 : ℚ) ^ (k + 1))).length ∧
          (min_width : ℚ) ≤ (2 : ℚ) ^ (k + 1) / 2
      · rw [if_pos hcond]
        refine ⟨NodeSpec.branch b _ S _ hcond.1 hcond.2 (by simp) ?_,
          List.filter_sublist S⟩
        intro m hm
        rw [range8_map_getD _ m hm, h2]
        exact (ih f (by omega) (b.add (Vector.smul ((2 : ℚ) ^ k) (octVec m)))
          (tbFilter tris S b ((2 : ℚ) ^ (k + 1)))).1
      · rw [if_neg hcond]
        rw [Classical.not_and_iff_or_not_not] at hcond
        refine ⟨NodeSpec.leaf b _ S ?_, List.filter_sublist S⟩
        rcases hcond with hc | hc
        · exact Or.inl (by omega)
        · exact Or.inr (by push_neg at hc; exact hc)

/-- C5 witness: the single-triangle octree's root-level node at width
`2^3 = 8` (the program's own call) satisfies the specification. -/
theorem claim5_witness :
    NodeSpec [exTriangle] 25 8 ⟨0, 0, 0⟩ ((2 : ℚ) ^ 3) [0]
      (nodeF [exTriangle] 25 8 4 ⟨0, 0, 0⟩ ((2 : ℚ) ^ 3) [0]) ∧
    (tbFilter [exTriangle] [0] ⟨0, 0, 0⟩ ((2 : ℚ) ^ 3)).Sublist [0] :=
  claim5_node_structure [exTriangle] 25 8 (by decide) 3 4 (by decide) ⟨0, 0, 0⟩ [0]


/-! ## Claim 6: leaves contain only overlapping triangles -/

/-- `LeafIn n b w lb lw indices`: the tree `n`, placed at the cube with
base `b` and width `w`, contains (through octant subdivision) a leaf
with index tuple `indices` at the cube with base `lb` and width `lw`. -/
inductive LeafIn : ONode → Vector → ℚ → Vector → ℚ → List ℕ → Prop where
  | here : ∀ indices b w, LeafIn (.leaf indices) b w b w indices
  | child : ∀ cs b w m lb lw indices, m < 8 →
      LeafIn (cs.getD m (.leaf [])) (b.add (Vector.smul (w / 2) (octVec m))) (w / 2)
        lb lw indices →
      LeafIn (.branch cs) b w lb lw indices

/-- C6 (amended): in every tree built by the recursive subdivision
(`Octree.node`) — in particular in every top-level grid node as first
constructed, before the flattening loop renumbers the grid — every leaf,
taken with the cube assigned to it by the subdivision it was built
under, holds only triangle indices whose triangles overlap that cube.
(After top-level flattening this can fail for a leaf reused as its own
child, whose indices were tested against the coarser pre-flattening
cube only; see the counterexample.) -/
theorem claim6_leaf_overlap (tris : List Triangle) (max_triangles min_width : ℕ) :
    (∀ (fuel : ℕ) (b : Vector) (w : ℚ) (S : List ℕ) (lb : Vector) (lw : ℚ)
        (indices : List ℕ),
      LeafIn (nodeF tris max_triangles min_width fuel b w S) b w lb lw indices →
      ∀ i ∈ indices,
        tribox_overlap (tris.getD i defaultTriangle) (centerOf lb lw) (lw / 2) = true) ∧
    (∀ (p : ℕ × ℕ × ℕ) (lb : Vector) (lw : ℚ) (indices : List ℕ),
      LeafIn (nodeF tris max_triangles min_width
          (nodeFuel (octreeGrid tris max_triangles min_width).base_width)
          ((octreeGrid tris max_triangles min_width).base.add
            (Vector.smul ((octreeGrid tris max_triangles min_width).base_width : ℕ)
              (tripleVec p)))
          ((octreeGrid tris max_triangles min_width).base_width : ℕ)
          (List.range tris.length))
        ((octreeGrid tris max_triangles min_width).base.add
          (Vector.smul ((octreeGrid tris max_triangles min_width).base_width : ℕ)
            (tripleVec p)))
        ((octreeGrid tris max_triangles min_width).base_width : ℕ) lb lw indices →
      ∀ i ∈ indices,
        tribox_overlap (tris.getD i defaultTriangle) (centerOf lb lw) (lw / 2) = true) := by
  have main : ∀ (fuel : ℕ) (b : Vector) (w : ℚ) (S : List ℕ) (lb : Vector) (lw : ℚ)
      (indices : List ℕ),
      LeafIn (nodeF tris max_triangles min_width fuel b w S) b w lb lw indices →
      ∀ i ∈ indices,
        tribox_overlap (tris.getD i defaultTriangle) (centerOf lb lw) (lw / 2) = true := by
    intro fuel
    induction fuel with
    | zero =>
      intro b w S lb lw indices hleaf
      simp only [nodeF] at hleaf
      cases hleaf with
      | here =>
        intro i hi
        exact (List.mem_filter.mp hi).2
    | succ f ih =>
      intro b w S lb lw indices hleaf
      simp only [nodeF] at hleaf
      by_cases hcond : max_triangles < (tbFilter tris S b w).length ∧
          (min_width : ℚ) ≤ w / 2
      · rw [if_pos hcond] at hleaf
        cases hleaf
        rename_i m hm hrec
        rw [range8_map_getD _ _ hm] at hrec
        exact ih _ _ _ _ _ _ hrec
      · rw [if_neg hcond] at hleaf
        cases hleaf with
        | here =>
          intro i hi
          exact (List.mem_filter.mp hi).2
  exact ⟨main, fun p lb lw indices h => main _ _ _ _ lb lw indices h⟩

/-- C6 witness: the single-triangle grid node is a leaf at its own cube
and its index 0 overlaps that cube. -/
theorem claim6_witness :
    ∀ i ∈ [0], tribox_overlap ([exTriangle].getD i defaultTriangle)
      (centerOf ⟨0, 0, 0⟩ 8) (8 / 2) = true :=
  (claim6_leaf_overlap [exTriangle] 25 8).1 4 ⟨0, 0, 0⟩ 8 [0] ⟨0, 0, 0⟩ 8 [0]
    (by
      have h : nodeF [exTriangle] 25 8 4 ⟨0, 0, 0⟩ 8 [0] = ONode.leaf [0] := by rfl
      rw [h]
      exact LeafIn.here [0] ⟨0, 0, 0⟩ 8)

/-- A small triangle in the z-plane through `p` with exact unit normal
`(0,0,1)`, used by the claim 6 counterexample. -/
def tinyTri (px py pz : ℚ) : Triangle :=
  ⟨⟨px, py, pz⟩, ⟨px + 1/5, py, pz⟩, ⟨px, py + 1/5, pz⟩, ⟨0, 0, 1⟩, 0⟩

/-- Fifteen triangles filling a 1×2×4 top-level grid of width-2 cubes:
seven grid cells hold two triangles each (with `max_triangles = 1`,
`min_width = 1` these become branches), the cell at grid position
`(0,1,3)` holds the single triangle 14 placed in that cell's far octant.
The branch ratio is exactly 7/8, so the flattening loop fires once. -/
def exTris6 : List Triangle :=
  [tinyTri 0 0 0, tinyTri (13/10) (1/4) (1/4),
   tinyTri (1/4) (33/10) (1/4), tinyTri (1/4) (9/4) (1/4),
   tinyTri (1/4) (1/4) (9/4), tinyTri (1/4) (1/4) (11/4),
   tinyTri (1/4) (9/4) (9/4), tinyTri (1/4) (9/4) (11/4),
   tinyTri (1/4) (1/4) (17/4), tinyTri (1/4) (1/4) (19/4),
   tinyTri (1/4) (9/4) (17/4), tinyTri (1/4) (9/4) (19/4),
   tinyTri (1/4) (1/4) (25/4), tinyTri (1/4) (1/4) (27/4),
   tinyTri (5/4) (13/4) (29/4)]

set_option maxRecDepth 8000 in
/-- C6 counterexample: after top-level flattening the finished octree
has a 2×4×8 grid of width-1 cubes; the node at grid position
`(0, 2, 6)` — list index `0 + 2*(2 + 4*6) = 52`, cube base `(0,2,6)`,
width 1 — is a leaf reused from the coarser grid and still holds index
14, whose triangle does **not** overlap that cube: the invariant of the
claim fails for the post-flattening grid cube. -/
theorem claim6_cex :
    ((Octree.init exTris6 1 1).children.getD 52 (.leaf [])).leafIndices = some [14] ∧
    (Octree.init exTris6 1 1).base = ⟨0, 0, 0⟩ ∧
    (Octree.init exTris6 1 1).base_width = 1 ∧
    (Octree.init exTris6 1 1).nx = 2 ∧
    (Octree.init exTris6 1 1).ny = 4 ∧
    (Octree.init exTris6 1 1).nz = 8 ∧
    tribox_overlap (exTris6.getD 14 defaultTriangle) (centerOf ⟨0, 2, 6⟩ 1) (1 / 2)
      = false := by
  refine ⟨?_, ?_, ?_, ?_, ?_, ?_, ?_⟩ <;> decide


/-! ## Claim 9: top-level flattening terminates -/

/-- Width-boundedness of a built tree: every branch was created at a
width whose half is at least `min_width` (the subdivision guard), its
children sitting at half width.  `Octree.node` only builds such trees,
and taking octants preserves the property at half width. -/
inductive WB (mw : ℚ) : ℚ → ONode → Prop where
  | leaf : ∀ w indices, WB mw w (.leaf indices)
  | branch : ∀ w cs, mw ≤ w / 2 → (∀ c ∈ cs, WB mw (w / 2) c) → WB mw w (.branch cs)

theorem wb_nodeF (tris : List Triangle) (max_triangles min_width : ℕ) :
    ∀ (fuel : ℕ) (b : Vector) (w : ℚ) (S : List ℕ),
      WB (min_width : ℚ) w (nodeF tris max_triangles min_width fuel b w S) := by
  intro fuel
  induction fuel with
  | zero =>
    intro b w S
    exact WB.leaf w _
  | succ f ih =>
    intro b w S
    simp only [nodeF]
    by_cases hcond : max_triangles < (tbFilter tris S b w).length ∧
        (min_width : ℚ) ≤ w / 2
    · rw [if_pos hcond]
      refine WB.branch w _ hcond.2 ?_
      intro c hc
      obtain ⟨m, _, rfl⟩ := List.mem_map.mp hc
      exact ih _ _ _
    · rw [if_neg hcond]
      exact WB.leaf w _

theorem wb_getOct (mw w : ℚ) (n : ONode) (h : WB mw w n) (i j k : ℕ) :
    WB mw (w / 2) (n.getOct i j k) := by
  cases h with
  | leaf w indices => exact WB.leaf _ _
  | branch w cs hmw hcs =>
    show WB mw (w / 2) (cs.getD (i + 2 * (j + 2 * k)) (.leaf []))
    by_cases hlt : i + 2 * (j + 2 * k) < cs.length
    · rw [List.getD_eq_getElem cs _ hlt]
      exact hcs _ (List.getElem_mem hlt)
    · rw [List.getD_eq_default cs _ (not_lt.mp hlt)]
      exact WB.leaf _ _

theorem wb_branch_lower {mw w : ℚ} {cs : List ONode} (h : WB mw w (.branch cs)) :
    2 * mw ≤ w := by
  cases h with
  | branch w cs hmw hcs => linarith

/-- All top-level nodes are width-bounded at the current `base_width`. -/
def GridWB (min_width : ℕ) (o : OctreeT) : Prop :=
  ∀ n ∈ o.children, WB (min_width : ℚ) (o.base_width : ℚ) n

theorem octreeGrid_wb (tris : List Triangle) (max_triangles min_width : ℕ) :
    GridWB min_width (octreeGrid tris max_triangles min_width) := by
  intro n hn
  simp only [octreeGrid] at hn
  obtain ⟨p, _, rfl⟩ := List.mem_map.mp hn
  exact wb_nodeF tris max_triangles min_width _ _ _ _

theorem flattenStep_wb (min_width : ℕ) (o : OctreeT) (e : ℕ)
    (hbw : o.base_width = 2 ^ (e + 1)) (h : GridWB min_width o) :
    GridWB min_width (flattenStep o) := by
  intro n hn
  simp only [flattenStep] at hn ⊢
  obtain ⟨p, _, rfl⟩ := List.mem_map.mp hn
  have h1 : WB (min_width : ℚ) (o.base_width : ℚ)
      (o.getAt (p.1 / 2) (p.2.1 / 2) (p.2.2 / 2)) := by
    unfold OctreeT.getAt
    by_cases hlt : p.1 / 2 + o.nx * (p.2.1 / 2 + o.ny * (p.2.2 / 2)) < o.children.length
    · rw [List.getD_eq_getElem o.children _ hlt]
      exact h _ (List.getElem_mem hlt)
    · rw [List.getD_eq_default o.children _ (not_lt.mp hlt)]
      exact WB.leaf _ _
  have h2 := wb_getOct _ _ _ h1 (p.1 % 2) (p.2.1 % 2) (p.2.2 % 2)
  have hnat : (o.base_width / 2 : ℕ) = 2 ^ e := by
    rw [hbw, pow_succ]
    omega
  have hcast : ((o.base_width / 2 : ℕ) : ℚ) = (o.base_width : ℚ) / 2 := by
    rw [hnat, hbw]
    push_cast [pow_succ]
    ring
  rw [hcast]
  exact h2

theorem flattenGuard_branch (o : OctreeT) (hg : flattenGuard o) :
    0 < branchCount o.children := by
  by_contra h
  have hz : branchCount o.children = 0 := by omega
  rw [flattenGuard, hz] at hg
  norm_num at hg

theorem exists_branch (ns : List ONode) (h : 0 < branchCount ns) :
    ∃ cs, ONode.branch cs ∈ ns := by
  unfold branchCount at h
  obtain ⟨n, hn⟩ := List.exists_mem_of_length_pos h
  have hmem := List.mem_filter.mp hn
  cases n with
  | leaf indices => simp [ONode.is_leaf] at hmem
  | branch cs => exact ⟨cs, hmem.1⟩

theorem min_two_pow (a b : ℕ) : min (2 ^ a) (2 ^ b) = 2 ^ (min a b) := by
  rcases le_total a b with h | h
  · rw [min_eq_left (Nat.pow_le_pow_right (by norm_num) h), min_eq_left h]
  · rw [min_eq_right (Nat.pow_le_pow_right (by norm_num) h), min_eq_right h]

theorem flattenLoop_exits (min_width : ℕ) (hmw : 1 ≤ min_width) :
    ∀ (e f : ℕ) (o : OctreeT), o.base_width = 2 ^ e → GridWB min_width o → e < f →
      ¬ flattenGuard (flattenLoop f o) := by
  have hmwq : (1 : ℚ) ≤ (min_width : ℚ) := by exact_mod_cast hmw
  intro e
  induction e with
  | zero =>
    intro f o hbw hwb hf
    cases f with
    | zero => omega
    | succ f =>
      rw [flattenLoop]
      by_cases hg : flattenGuard o
      · exfalso
        obtain ⟨cs, hcs⟩ := exists_branch _ (flattenGuard_branch o hg)
        have hlow := wb_branch_lower (hwb _ hcs)
        rw [hbw] at hlow
        push_cast at hlow
        linarith
      · rw [if_neg hg]
        exact hg
  | succ e ih =>
    intro f o hbw hwb hf
    cases f with
    | zero => omega
    | succ f =>
      rw [flattenLoop]
      by_cases hg : flattenGuard o
      · rw [if_pos hg]
        refine ih f (flattenStep o) ?_ (flattenStep_wb min_width o e hbw hwb) (by omega)
        simp only [flattenStep]
        rw [hbw, pow_succ]
        omega
      · rw [if_neg hg]
        exact hg

/-- C9: (i) each flattening iteration halves `base_width` and doubles
`nx`, `ny`, `nz`; (ii) once `base_width < 2*min_width` no top-level node
of a width-bounded grid can be a branch; (iii) for any non-empty
triangle list and positive `min_width`, the loop in `Octree.__init__`
terminates with the guard false — the branch ratio has dropped below
0.875 (7/8). -/
theorem claim9_flatten_terminates :
    (∀ o : OctreeT, (flattenStep o).base_width = o.base_width / 2 ∧
      (flattenStep o).nx = 2 * o.nx ∧ (flattenStep o).ny = 2 * o.ny ∧
      (flattenStep o).nz = 2 * o.nz) ∧
    (∀ (min_width : ℕ) (o : OctreeT), GridWB min_width o →
      (o.base_width : ℚ) < 2 * (min_width : ℚ) → branchCount o.children = 0) ∧
    (∀ (tris : List Triangle) (max_triangles min_width : ℕ), tris ≠ [] →
      1 ≤ min_width → ¬ flattenGuard (Octree.init tris max_triangles min_width)) := by
  refine ⟨fun o => ⟨rfl, rfl, rfl, rfl⟩, ?_, ?_⟩
  · intro mw o hwb hsmall
    by_contra h
    obtain ⟨cs, hcs⟩ := exists_branch _ (Nat.pos_of_ne_zero h)
    have hlow := wb_branch_lower (hwb _ hcs)
    linarith
  · intro tris max_triangles min_width _htris hmw
    unfold Octree.init
    obtain ⟨e, he⟩ : ∃ e, (octreeGrid tris max_triangles min_width).base_width = 2 ^ e := by
      have hgoal : (octreeGrid tris max_triangles min_width).base_width
          = min (pow2width (bboxFold max (fun v => v.x) tris -
              bboxFold min (fun v => v.x) tris) min_width)
            (min (pow2width (bboxFold max (fun v => v.y) tris -
              bboxFold min (fun v => v.y) tris) min_width)
             (pow2width (bboxFold max (fun v => v.z) tris -
              bboxFold min (fun v => v.z) tris) min_width)) := rfl
      rw [hgoal]
      unfold pow2width
      rw [min_two_pow, min_two_pow]
      exact ⟨_, rfl⟩
    exact flattenLoop_exits min_width hmw e _ _ he
      (octreeGrid_wb tris max_triangles min_width)
      (by rw [he]; exact Nat.lt_succ_of_lt (Nat.lt_two_pow e))


/-- C9 witness: the single-triangle build — one halving/doubling step
identity, a branch-free grid below the width bound, and a terminated
loop. -/
theorem claim9_witness :
    ((flattenStep (octreeGrid [exTriangle] 25 8)).base_width
      = (octreeGrid [exTriangle] 25 8).base_width / 2) ∧
    branchCount (octreeGrid [exTriangle] 25 8).children = 0 ∧
    ¬ flattenGuard (Octree.init [exTriangle] 25 8) :=
  ⟨(claim9_flatten_terminates.1 (octreeGrid [exTriangle] 25 8)).1,
   claim9_flatten_terminates.2.1 8 (octreeGrid [exTriangle] 25 8)
     (octreeGrid_wb [exTriangle] 25 8) (by decide),
   claim9_flatten_terminates.2.2 [exTriangle] 25 8 (by decide) (by decide)⟩

/-! ## Claim 3: back-patched header fields -/

/-- The flattening loop keeps all of `base_width`, `nx`, `ny`, `nz`
powers of two: after `d ≤ e` iterations the width exponent has dropped
by `d` and the grid dimensions have doubled `d` times. -/
theorem flattenLoop_props (min_width : ℕ) (hmw : 1 ≤ min_width) :
    ∀ (f e : ℕ) (o : OctreeT), o.base_width = 2 ^ e → GridWB min_width o →
      ∃ d, d ≤ e ∧ (flattenLoop f o).base_width = 2 ^ (e - d) ∧
        (flattenLoop f o).nx = 2 ^ d * o.nx ∧
        (flattenLoop f o).ny = 2 ^ d * o.ny ∧
        (flattenLoop f o).nz = 2 ^ d * o.nz := by
  have hmwq : (1 : ℚ) ≤ (min_width : ℚ) := by exact_mod_cast hmw
  intro f
  induction f with
  | zero =>
    intro e o hbw _
    exact ⟨0, by omega, by simpa [flattenLoop] using hbw, by simp [flattenLoop],
      by simp [flattenLoop], by simp [flattenLoop]⟩
  | succ f ih =>
    intro e o hbw hwb
    rw [flattenLoop]
    by_cases hg : flattenGuard o
    · rw [if_pos hg]
      obtain ⟨cs, hcs⟩ := exists_branch _ (flattenGuard_branch o hg)
      have hlow := wb_branch_lower (hwb _ hcs)
      have he1 : 1 ≤ e := by
        by_contra hh
        have he0 : e = 0 := by omega
        rw [hbw, he0] at hlow
        push_cast at hlow
        linarith
      obtain ⟨e', rfl⟩ : ∃ e', e = e' + 1 := ⟨e - 1, by omega⟩
      have hbw' : (flattenStep o).base_width = 2 ^ e' := by
        simp only [flattenStep]
        rw [hbw, pow_succ]
        omega
      obtain ⟨d, hd, h1, h2, h3, h4⟩ := ih e' (flattenStep o) hbw'
        (flattenStep_wb min_width o e' hbw hwb)
      refine ⟨d + 1, by omega, ?_, ?_, ?_, ?_⟩
      · rw [h1]
        congr 1
        omega
      · rw [h2]
        show 2 ^ d * (2 * o.nx) = 2 ^ (d + 1) * o.nx
        ring
      · rw [h3]
        show 2 ^ d * (2 * o.ny) = 2 ^ (d + 1) * o.ny
        ring
      · rw [h4]
        show 2 ^ d * (2 * o.nz) = 2 ^ (d + 1) * o.nz
        ring
    · rw [if_neg hg]
      exact ⟨0, by omega, by simpa using hbw, by simp, by simp, by simp⟩

/-- The grid before flattening: the three widths, `base_width` and the
grid dimensions are the expected powers of two. -/
theorem octreeGrid_pows (tris : List Triangle) (max_triangles min_width : ℕ) :
    ∃ ax ay az e, (octreeGrid tris max_triangles min_width).width_x = 2 ^ ax ∧
      (octreeGrid tris max_triangles min_width).width_y = 2 ^ ay ∧
      (octreeGrid tris max_triangles min_width).width_z = 2 ^ az ∧
      (octreeGrid tris max_triangles min_width).base_width = 2 ^ e ∧
      e ≤ ax ∧ e ≤ ay ∧ e ≤ az ∧
      (octreeGrid tris max_triangles min_width).nx = 2 ^ (ax - e) ∧
      (octreeGrid tris max_triangles min_width).ny = 2 ^ (ay - e) ∧
      (octreeGrid tris max_triangles min_width).nz = 2 ^ (az - e) := by
  refine ⟨ceilLog2 (max (⌈bboxFold max (fun v => v.x) tris -
      bboxFold min (fun v => v.x) tris⌉.toNat) min_width),
    ceilLog2 (max (⌈bboxFold max (fun v => v.y) tris -
      bboxFold min (fun v => v.y) tris⌉.toNat) min_width),
    ceilLog2 (max (⌈bboxFold max (fun v => v.z) tris -
      bboxFold min (fun v => v.z) tris⌉.toNat) min_width),
    min (ceilLog2 (max (⌈bboxFold max (fun v => v.x) tris -
      bboxFold min (fun v => v.x) tris⌉.toNat) min_width))
     (min (ceilLog2 (max (⌈bboxFold max (fun v => v.y) tris -
       bboxFold min (fun v => v.y) tris⌉.toNat) min_width))
      (ceilLog2 (max (⌈bboxFold max (fun v => v.z) tris -
       bboxFold min (fun v => v.z) tris⌉.toNat) min_width))),
    rfl, rfl, rfl, ?_, ?_, ?_, ?_, ?_, ?_, ?_⟩
  · show min (pow2width _ _) (min (pow2width _ _) (pow2width _ _)) = _
    unfold pow2width
    rw [min_two_pow, min_two_pow]
  · exact min_le_left _ _
  · exact le_trans (min_le_right _ _) (min_le_left _ _)
  · exact le_trans (min_le_right _ _) (min_le_right _ _)
  · show pow2width _ _ / min (pow2width _ _) (min (pow2width _ _) (pow2width _ _)) = _
    unfold pow2width
    rw [min_two_pow, min_two_pow,
      Nat.pow_div (min_le_left _ _) (by norm_num)]
  · show pow2width _ _ / min (pow2width _ _) (min (pow2width _ _) (pow2width _ _)) = _
    unfold pow2width
    rw [min_two_pow, min_two_pow,
      Nat.pow_div (le_trans (min_le_right _ _) (min_le_left _ _)) (by norm_num)]
  · show pow2width _ _ / min (pow2width _ _) (min (pow2width _ _) (pow2width _ _)) = _
    unfold pow2width
    rw [min_two_pow, min_two_pow,
      Nat.pow_div (le_trans (min_le_right _ _) (min_le_right _ _)) (by norm_num)]

/-- The finished octree's `base_width`, `nx` and `ny` are powers of two
(given a positive `min_width`). -/
theorem octreeInit_pows (tris : List Triangle) (max_triangles min_width : ℕ)
    (hmw : 1 ≤ min_width) :
    (∃ a, (Octree.init tris max_triangles min_width).base_width = 2 ^ a) ∧
    (∃ b, (Octree.init tris max_triangles min_width).nx = 2 ^ b) ∧
    (∃ c, (Octree.init tris max_triangles min_width).ny = 2 ^ c) := by
  obtain ⟨ax, ay, az, e, hwx, hwy, hwz, hbw, hex, hey, hez, hnx, hny, hnz⟩ :=
    octreeGrid_pows tris max_triangles min_width
  obtain ⟨d, hd, h1, h2, h3, h4⟩ := flattenLoop_props min_width hmw
    ((octreeGrid tris max_triangles min_width).base_width + 1) e
    (octreeGrid tris max_triangles min_width) hbw
    (octreeGrid_wb tris max_triangles min_width)
  refine ⟨⟨e - d, h1⟩, ⟨d + (ax - e), ?_⟩, ⟨d + (ay - e), ?_⟩⟩
  · show (flattenLoop _ _).nx = _
    rw [h2, hnx, pow_add]
  · show (flattenLoop _ _).ny = _
    rw [h3, hny, pow_add]

theorem foldl_packVector_pos (l : List Vector) (s : BStream) :
    (l.foldl packVector s).pos = s.pos + 12 * l.length := by
  induction l generalizing s with
  | nil => simp
  | cons a t ih =>
    show (t.foldl packVector (packVector s a)).pos = _
    rw [ih]
    simp only [packVector, BStream.write, WOp.size, List.length_cons]
    omega

/-- C3: on every successful `pack` the back-patched header satisfies:
`face_offset` is the file position of the first face record
(`sizeof(Header) + 12*|vertices| + 12*|normals|`) minus
`sizeof(Face) = 16`; the masks are `~(width - 1) & 0xFFFFFFFF` of the
octree widths; `coordinate_shift`, `y_shift`, `z_shift` are the exact
base-2 logarithms of `base_width`, `nx` and `nx*ny`; `unknown0 = 40.0`;
and `base` is the octree's base corner. -/
theorem claim3_header_backpatch (sq : ℚ → ℚ) (tris : List Triangle)
    (max_triangles min_width : ℕ) (hdr : HeaderR) (hmw : 1 ≤ min_width)
    (hok : (pack sq BStream.empty tris max_triangles min_width).out = .ok hdr) :
    faceSizeof = 16 ∧
    hdr.face_offset + (faceSizeof : ℤ) =
      (headerSizeof : ℤ) + 12 * (packFacesOf sq tris).2.1.vertices.length +
        12 * (packFacesOf sq tris).2.2.vertices.length ∧
    hdr.x_mask = mask32 (Octree.init tris max_triangles min_width).width_x ∧
    hdr.y_mask = mask32 (Octree.init tris max_triangles min_width).width_y ∧
    hdr.z_mask = mask32 (Octree.init tris max_triangles min_width).width_z ∧
    2 ^ hdr.coordinate_shift = (Octree.init tris max_triangles min_width).base_width ∧
    2 ^ hdr.y_shift = (Octree.init tris max_triangles min_width).nx ∧
    2 ^ hdr.z_shift = (Octree.init tris max_triangles min_width).nx *
      (Octree.init tris max_triangles min_width).ny ∧
    hdr.unknown0 = 40 ∧
    hdr.base = (Octree.init tris max_triangles min_width).base := by
  obtain ⟨-, hdr_eq⟩ := pack_ok_shape sq BStream.empty tris max_triangles min_width hdr hok
  subst hdr_eq
  obtain ⟨⟨a, ha⟩, ⟨b, hb⟩, ⟨c, hc⟩⟩ := octreeInit_pows tris max_triangles min_width hmw
  refine ⟨by decide, ?_, rfl, rfl, rfl, ?_, ?_, ?_, rfl, rfl⟩
  · show (((packFacesOf sq tris).2.2.vertices.foldl packVector
      ((packFacesOf sq tris).2.1.vertices.foldl packVector
        (BStream.empty.write (WOp.zeros headerSizeof)))).pos : ℤ) - (faceSizeof : ℤ) +
      (faceSizeof : ℤ) = _
    rw [foldl_packVector_pos, foldl_packVector_pos]
    show ((BStream.empty.pos + (WOp.zeros headerSizeof).size + 12 *
      (packFacesOf sq tris).2.1.vertices.length + 12 *
      (packFacesOf sq tris).2.2.vertices.length : ℕ) : ℤ) - 16 + 16 = _
    push_cast [BStream.empty, WOp.size]
    ring
  · show 2 ^ floorLog2 (Octree.init tris max_triangles min_width).base_width = _
    rw [ha, floorLog2_two_pow]
  · show 2 ^ floorLog2 (Octree.init tris max_triangles min_width).nx = _
    rw [hb, floorLog2_two_pow]
  · show 2 ^ (floorLog2 (Octree.init tris max_triangles min_width).nx +
      floorLog2 (Octree.init tris max_triangles min_width).ny) = _
    rw [hb, hc, floorLog2_two_pow, floorLog2_two_pow, pow_add]

/-- C3 witness: the single-triangle pack and its computed header. -/
theorem claim3_witness :
    (1 ≤ 8) ∧ ((pack sqId BStream.empty [exTriangle] 25 8).out = .ok exHeader) ∧
    (faceSizeof = 16 ∧
     exHeader.face_offset + (faceSizeof : ℤ) =
       (headerSizeof : ℤ) + 12 * (packFacesOf sqId [exTriangle]).2.1.vertices.length +
         12 * (packFacesOf sqId [exTriangle]).2.2.vertices.length ∧
     exHeader.x_mask = mask32 (Octree.init [exTriangle] 25 8).width_x ∧
     exHeader.y_mask = mask32 (Octree.init [exTriangle] 25 8).width_y ∧
     exHeader.z_mask = mask32 (Octree.init [exTriangle] 25 8).width_z ∧
     2 ^ exHeader.coordinate_shift = (Octree.init [exTriangle] 25 8).base_width ∧
     2 ^ exHeader.y_shift = (Octree.init [exTriangle] 25 8).nx ∧
     2 ^ exHeader.z_shift = (Octree.init [exTriangle] 25 8).nx *
       (Octree.init [exTriangle] 25 8).ny ∧
     exHeader.unknown0 = 40 ∧
     exHeader.base = (Octree.init [exTriangle] 25 8).base) :=
  ⟨by decide, by decide,
   claim3_header_backpatch sqId [exTriangle] 25 8 exHeader (by decide) (by decide)⟩


/-! ## Claim 7: index-list region -/

/-- Invariant of phase 1: stored keys are distinct non-empty tuples, the
running `free_list_offset` is the byte length of the region emitted so
far, and each stored tuple sits in the region at its recorded byte
offset. -/
def PLInv (st : List (List ℕ × ℕ) × ℕ) : Prop :=
  (st.1.map Prod.fst).Nodup ∧
  st.2 = 2 * (regionOf st.1).length ∧
  ∀ p ∈ st.1, p.1 ≠ [] ∧
    ∃ pre rest, regionOf st.1 = pre ++ (encList p.1 ++ rest) ∧ p.2 = 2 * pre.length

theorem regionOf_append (a b : List (List ℕ × ℕ)) :
    regionOf (a ++ b) = regionOf a ++ regionOf b := by
  simp [regionOf]

theorem encList_length (l : List ℕ) : (encList l).length = l.length + 1 := by
  simp [encList]

theorem plStep_inv (st : List (List ℕ × ℕ) × ℕ) (n : ONode) (h : PLInv st) :
    PLInv (plStep st n) := by
  obtain ⟨hnd, hfree, hmem⟩ := h
  cases n with
  | branch cs => exact ⟨hnd, hfree, hmem⟩
  | leaf indices =>
    cases indices with
    | nil => exact ⟨hnd, hfree, hmem⟩
    | cons i is =>
      show PLInv (if ((st.1.lookup (i :: is)).isSome) then st else _)
      by_cases hl : (st.1.lookup (i :: is)).isSome
      · rw [if_pos hl]
        exact ⟨hnd, hfree, hmem⟩
      · rw [if_neg hl]
        have hnotin : (i :: is) ∉ st.1.map Prod.fst := by
          intro hin
        -- a present key would make the lookup succeed
          obtain ⟨p, hp, hpe⟩ := List.mem_map.mp hin
          exact hl (List.lookup_isSome_iff.mpr ⟨p, hp, by simp [hpe]⟩)
        have hreg : regionOf (st.1 ++ [(i :: is, st.2)]) =
            regionOf st.1 ++ encList (i :: is) := by
          rw [regionOf_append]
          simp [regionOf]
        refine ⟨?_, ?_, ?_⟩
        · simp only [List.map_append, List.map_cons, List.map_nil]
          rw [List.nodup_append]
          exact ⟨hnd, List.nodup_singleton _, by simpa using fun hx => hnotin hx⟩
        · show st.2 + 2 * ((i :: is).length + 1) = _
          rw [hreg]
          simp only [List.length_append, encList_length]
          omega
        · intro p hp
          rcases List.mem_append.mp hp with hold | hnew
          · obtain ⟨hne, pre, rest, hsplit, hoff⟩ := hmem p hold
            refine ⟨hne, pre, rest ++ encList (i :: is), ?_, hoff⟩
            rw [hreg, hsplit]
            simp [List.append_assoc]
          · simp only [List.mem_singleton] at hnew
            subst hnew
            refine ⟨by simp, regionOf st.1, [], ?_, by simpa using hfree⟩
            rw [hreg]
            simp

theorem foldl_inv {α σ : Type _} (P : σ → Prop) (step : σ → α → σ)
    (hstep : ∀ s a, P s → P (step s a)) :
    ∀ (l : List α) (s : σ), P s → P (l.foldl step s) := by
  intro l
  induction l with
  | nil => exact fun s h => h
  | cons a t ih => exact fun s h => ih (step s a) (hstep s a h)

theorem packLists_inv (tables : List (List ONode)) : PLInv (packLists tables) := by
  unfold packLists
  refine foldl_inv PLInv _ (fun s t h => foldl_inv PLInv plStep plStep_inv t s h)
    tables ([], 0) ?_
  exact ⟨List.nodup_nil, rfl, fun p hp => absurd hp (List.not_mem_nil p)⟩

/-- Pairs already stored are preserved (phase 1 only appends). -/
theorem plStep_fst_append (st : List (List ℕ × ℕ) × ℕ) (n : ONode) :
    ∃ e, (plStep st n).1 = st.1 ++ e := by
  cases n with
  | branch cs => exact ⟨[], by simp [plStep]⟩
  | leaf indices =>
    cases indices with
    | nil => exact ⟨[], by simp [plStep]⟩
    | cons i is =>
      show ∃ e, (if ((st.1.lookup (i :: is)).isSome) then st else _).1 = st.1 ++ e
      by_cases hl : (st.1.lookup (i :: is)).isSome
      · rw [if_pos hl]
        exact ⟨[], by simp⟩
      · rw [if_neg hl]
        exact ⟨[(i :: is, st.2)], rfl⟩

theorem foldl_plStep_fst_append :
    ∀ (l : List ONode) (st : List (List ℕ × ℕ) × ℕ),
      ∃ e, (l.foldl plStep st).1 = st.1 ++ e := by
  intro l
  induction l with
  | nil => exact fun st => ⟨[], by simp⟩
  | cons n t ih =>
    intro st
    obtain ⟨e1, h1⟩ := plStep_fst_append st n
    obtain ⟨e2, h2⟩ := ih (plStep st n)
    exact ⟨e1 ++ e2, by rw [List.foldl_cons, h2, h1, List.append_assoc]⟩

theorem foldl_tables_fst_append :
    ∀ (ts : List (List ONode)) (st : List (List ℕ × ℕ) × ℕ),
      ∃ e, (ts.foldl (fun st t => t.foldl plStep st) st).1 = st.1 ++ e := by
  intro ts
  induction ts with
  | nil => exact fun st => ⟨[], by simp⟩
  | cons t rest ih =>
    intro st
    obtain ⟨e1, h1⟩ := foldl_plStep_fst_append t st
    obtain ⟨e2, h2⟩ := ih (t.foldl plStep st)
    exact ⟨e1 ++ e2, by rw [List.foldl_cons, h2, h1, List.append_assoc]⟩

/-- After processing a table containing `leaf l` (`l` non-empty), `l` is
a stored key. -/
theorem inner_key_present :
    ∀ (t : List ONode) (st : List (List ℕ × ℕ) × ℕ) (l : List ℕ), l ≠ [] →
      ONode.leaf l ∈ t → ∃ o, (l, o) ∈ (t.foldl plStep st).1 := by
  intro t
  induction t with
  | nil =>
    intro st l _ hmem
    exact absurd hmem (List.not_mem_nil _)
  | cons n rest ih =>
    intro st l hne hmem
    rcases List.mem_cons.mp hmem with heq | htail
    · -- the head node is this leaf; after its step the key is present
      obtain ⟨o, ho⟩ : ∃ o, (l, o) ∈ (plStep st n).1 := by
        subst heq
        cases l with
        | nil => exact absurd rfl hne
        | cons i is =>
          show ∃ o, (i :: is, o) ∈ (if ((st.1.lookup (i :: is)).isSome) then st
            else (st.1 ++ [(i :: is, st.2)], st.2 + 2 * ((i :: is).length + 1))).1
          by_cases hl : (st.1.lookup (i :: is)).isSome
          · rw [if_pos hl]
            obtain ⟨p, hp, hpe⟩ := List.lookup_isSome_iff.mp hl
            refine ⟨p.2, ?_⟩
            have : p = (i :: is, p.2) := by
              have := beq_iff_eq.mp hpe
              exact Prod.ext this.symm rfl
            rw [← this]
            exact hp
          · rw [if_neg hl]
            exact ⟨st.2, by simp⟩
      obtain ⟨e, he⟩ := foldl_plStep_fst_append rest (plStep st n)
      refine ⟨o, ?_⟩
      rw [List.foldl_cons, he]
      exact List.mem_append_left _ ho
    · obtain ⟨o, ho⟩ := ih (plStep st n) l hne htail
      exact ⟨o, by rw [List.foldl_cons]; exact ho⟩

/-- Every non-empty leaf tuple anywhere in the tables is stored. -/
theorem tables_key_present :
    ∀ (ts : List (List ONode)) (st : List (List ℕ × ℕ) × ℕ) (t : List ONode),
      t ∈ ts → ∀ (l : List ℕ), l ≠ [] → ONode.leaf l ∈ t →
      ∃ o, (l, o) ∈ (ts.foldl (fun st t => t.foldl plStep st) st).1 := by
  intro ts
  induction ts with
  | nil =>
    intro st t ht
    exact absurd ht (List.not_mem_nil _)
  | cons t0 rest ih =>
    intro st t ht l hne hmem
    rcases List.mem_cons.mp ht with heq | htail
    · subst heq
      obtain ⟨o, ho⟩ := inner_key_present t st l hne hmem
      obtain ⟨e, he⟩ := foldl_tables_fst_append rest (t.foldl plStep st)
      refine ⟨o, ?_⟩
      rw [List.foldl_cons, he]
      exact List.mem_append_left _ ho
    · exact ih (t0.foldl plStep st) t htail l hne hmem

/-- C7: in the packed index-list region (over any table sequence):
each stored tuple appears at its recorded even byte offset as the
`(index + 1)` words followed by one terminating zero; tuples are stored
once (first occurrence owns the storage) and every non-empty leaf tuple
of the tables is stored, all leaves with that tuple sharing the single
recorded offset via the tuple-keyed lookup; the final
`free_list_offset` is the total byte length of the region; the empty
tuple's offset is `free_list_offset - 2 = total_list_bytes - 2`, which
is the word position of the last emitted terminator whenever at least
one non-empty list exists. -/
theorem claim7_index_lists (tables : List (List ONode)) :
    ((packLists tables).1.map Prod.fst).Nodup ∧
    (∀ l o, (l, o) ∈ (packLists tables).1 → l ≠ [] ∧ o % 2 = 0 ∧
      ((regionWords tables).drop (o / 2)).take (l.length + 1) = l.map (· + 1) ++ [0]) ∧
    (∀ (t : List ONode), t ∈ tables → ∀ (l : List ℕ), l ≠ [] → ONode.leaf l ∈ t →
      ∃ o, (l, o) ∈ (packLists tables).1) ∧
    ((packLists tables).2 = 2 * (regionWords tables).length) ∧
    (listOffsetOf (packLists tables).1 (packLists tables).2 []
      = 2 * ((regionWords tables).length : ℤ) - 2) ∧
    ((packLists tables).1 ≠ [] → ∃ ws, regionWords tables = ws ++ [0] ∧
      listOffsetOf (packLists tables).1 (packLists tables).2 [] = 2 * (ws.length : ℤ)) := by
  obtain ⟨hnd, hfree, hmem⟩ := packLists_inv tables
  have hregion : regionWords tables = regionOf (packLists tables).1 := rfl
  refine ⟨hnd, ?_, ?_, ?_, ?_, ?_⟩
  · intro l o hp
    obtain ⟨hne, pre, rest, hsplit, hoff⟩ := hmem (l, o) hp
    dsimp only at hne hsplit hoff
    refine ⟨hne, by omega, ?_⟩
    rw [hregion, hsplit, hoff]
    have hdrop : (2 * pre.length) / 2 = pre.length := by omega
    rw [hdrop, List.drop_left]
    have htake : (encList l ++ rest).take (l.length + 1) = encList l :=
      List.take_left' (encList_length l)
    rw [htake]
    rfl
  · exact fun t ht l hne hmem2 => tables_key_present tables ([], 0) t ht l hne hmem2
  · rw [hregion]
    exact hfree
  · show (if ([] : List ℕ) = [] then ((packLists tables).2 : ℤ) - 2 else _) = _
    rw [if_pos rfl, hregion, hfree]
    push_cast
    ring
  · intro hne
    rcases List.eq_nil_or_concat (packLists tables).1 with hnil | ⟨init, p, hconcat⟩
    · exact absurd hnil hne
    rw [List.concat_eq_append] at hconcat
    refine ⟨regionOf init ++ p.1.map (· + 1), ?_, ?_⟩
    · rw [hregion, hconcat, regionOf_append]
      simp [regionOf, encList, List.append_assoc]
    · show (if ([] : List ℕ) = [] then ((packLists tables).2 : ℤ) - 2 else _) = _
      rw [if_pos rfl, hfree]
      have hlen : (regionOf (packLists tables).1).length
          = (regionOf init ++ p.1.map (· + 1)).length + 1 := by
        rw [hconcat, regionOf_append]
        simp [regionOf, encList]
        omega
      rw [hlen]
      push_cast
      ring

/-- Witness for C7: the index-list invariants instantiated on a concrete
one-table, one-leaf input, with the leaf-membership hypotheses discharged. -/
theorem claim7_witness :
    (∃ o, ([0], o) ∈ (packLists [[ONode.leaf [0]]]).1) ∧
    (packLists [[ONode.leaf [0]]]).2 = 2 * (regionWords [[ONode.leaf [0]]]).length := by
  have h := claim7_index_lists [[ONode.leaf [0]]]
  exact ⟨h.2.2.1 [ONode.leaf [0]] (by simp) [0] (by simp) (by simp), h.2.2.2.1⟩


/-! ## C8: BCSV surface-type roundtrip -/

namespace bcsv

/-- Bit-field extraction: masking with `(2^k - 1) <<< s` then shifting right
by `s` isolates the `k`-bit field at bit position `s`. -/
theorem and_shl_mask_shr (x k s : ℕ) :
    (x &&& ((2 ^ k - 1) <<< s)) >>> s = x / 2 ^ s % 2 ^ k := by
  rw [← Nat.shiftRight_eq_div_pow]
  apply Nat.eq_of_testBit_eq
  intro i
  simp [Nat.testBit_shiftRight, Nat.testBit_and, Nat.testBit_shiftLeft,
    Nat.testBit_mod_two_pow, Nat.testBit_two_pow_sub_one]
  exact Bool.and_comm _ _

/-- OR of a left-shifted value with a small value is addition. -/
theorem shl_or_eq_add (v s b : ℕ) (hb : b < 2 ^ s) :
    (v <<< s) ||| b = v * 2 ^ s + b := by
  rw [Nat.shiftLeft_eq, Nat.mul_comm v (2 ^ s), ← Nat.mul_add_lt_is_or hb v,
    Nat.mul_comm (2 ^ s) v]

/-- Reading back the four little-endian bytes of a value recovers it mod 2^32. -/
theorem readU32_u32b (w : ℕ) : readU32 (u32b w) 0 = w % 4294967296 := by
  have h : readU32 (u32b w) 0
      = w % 256 + 256 * (w / 256 % 256) + 65536 * (w / 65536 % 256)
        + 16777216 * (w / 16777216 % 256) := rfl
  rw [h]; omega

/-- Writing a `u32` over a four-byte buffer replaces it wholesale. -/
theorem bufWriteU32_u32b (w v : ℕ) : bufWriteU32 (u32b w) 0 v = u32b v := rfl

theorem replicate_four_eq_u32b : List.replicate 4 (0 : ℕ) = u32b 0 := rfl

/-- `encodeRow` on the five surface-type fields assembles the single `u32`
row value `v4*2^25 + v3*2^21 + v2*2^15 + v1*2^8 + v0` (in-bounds inputs). -/
theorem encodeRow_val (v0 v1 v2 v3 v4 : ℕ)
    (h0 : v0 < 256) (h1 : v1 < 128) (h2 : v2 < 64) (h3 : v3 < 16) (_h4 : v4 < 2) :
    encodeRow 4 stFields [v0, v1, v2, v3, v4]
      = u32b (v4 * 33554432 + (v3 * 2097152 + (v2 * 32768 + (v1 * 256 + v0)))) := by
  simp only [encodeRow, stFields, List.zip_cons_cons, List.zip_nil_right,
    List.foldl_cons, List.foldl_nil]
  rw [replicate_four_eq_u32b, readU32_u32b, bufWriteU32_u32b]
  rw [show (v0 <<< 0) ||| 0 % 4294967296 = v0 by simp]
  rw [readU32_u32b, Nat.mod_eq_of_lt (by omega), bufWriteU32_u32b,
    shl_or_eq_add v1 8 v0 (by omega)]
  rw [readU32_u32b, Nat.mod_eq_of_lt (by omega), bufWriteU32_u32b,
    shl_or_eq_add v2 15 (v1 * 2 ^ 8 + v0) (by omega)]
  rw [readU32_u32b, Nat.mod_eq_of_lt (by omega), bufWriteU32_u32b,
    shl_or_eq_add v3 21 (v2 * 2 ^ 15 + (v1 * 2 ^ 8 + v0)) (by omega)]
  rw [readU32_u32b, Nat.mod_eq_of_lt (by omega), bufWriteU32_u32b,
    shl_or_eq_add v4 25 (v3 * 2 ^ 21 + (v2 * 2 ^ 15 + (v1 * 2 ^ 8 + v0))) (by omega)]
  norm_num

/-- `decodeRow` on the five surface-type fields splits a `u32` row value
back into the five bit fields. -/
theorem decodeRow_u32b (W : ℕ) (hW : W < 4294967296) :
    decodeRow stFields (u32b W)
      = [W % 256, W / 256 % 128, W / 32768 % 64, W / 2097152 % 16,
         W / 33554432 % 2] := by
  simp only [decodeRow, stFields, List.map_cons, List.map_nil, readU32_u32b,
    Nat.mod_eq_of_lt hW]
  rw [show (255 : ℕ) = (2 ^ 8 - 1) <<< 0 by rw [Nat.shiftLeft_eq]; norm_num]
  rw [show (32512 : ℕ) = (2 ^ 7 - 1) <<< 8 by rw [Nat.shiftLeft_eq]; norm_num]
  rw [show (2064384 : ℕ) = (2 ^ 6 - 1) <<< 15 by rw [Nat.shiftLeft_eq]; norm_num]
  rw [show (31457280 : ℕ) = (2 ^ 4 - 1) <<< 21 by rw [Nat.shiftLeft_eq]; norm_num]
  rw [show (33554432 : ℕ) = (2 ^ 1 - 1) <<< 25 by rw [Nat.shiftLeft_eq]; norm_num]
  rw [and_shl_mask_shr, and_shl_mask_shr, and_shl_mask_shr, and_shl_mask_shr,
    and_shl_mask_shr]
  norm_num [Nat.shiftLeft_eq]

/-- Decoding an encoded surface-type row recovers the field values. -/
theorem decode_encode_row (v0 v1 v2 v3 v4 : ℕ)
    (h0 : v0 < 256) (h1 : v1 < 128) (h2 : v2 < 64) (h3 : v3 < 16) (h4 : v4 < 2) :
    decodeRow stFields (encodeRow 4 stFields [v0, v1, v2, v3, v4])
      = [v0, v1, v2, v3, v4] := by
  rw [encodeRow_val v0 v1 v2 v3 v4 h0 h1 h2 h3 h4, decodeRow_u32b _ (by omega)]
  simp only [List.cons.injEq, and_true]
  refine ⟨by omega, by omega, by omega, by omega, by omega⟩

theorem stFields_len : stFields.length = 5 := rfl

theorem entrySizeOf_stFields : entrySizeOf stFields = 4 := by decide

theorem fieldBytes_len : (stFields.flatMap fieldBytes).length = 60 := by decide

/-- `encodeRow` always yields exactly `entry_size` bytes (the RMW writes
preserve the length of the zero entry block). -/
theorem encodeRow_length (es : ℕ) (fields : List BField) (vals : List ℕ) :
    (encodeRow es fields vals).length = es := by
  suffices h : ∀ (l : List (BField × ℕ)) (buf : List ℕ),
      (l.foldl (fun buf fv =>
        bufWriteU32 buf fv.1.offset ((fv.2 <<< fv.1.shift) ||| readU32 buf fv.1.offset))
        buf).length = buf.length by
    rw [encodeRow, h]
    exact List.length_replicate es 0
  intro l
  induction l with
  | nil => intro buf; rfl
  | cons p t ih =>
    intro buf
    rw [List.foldl_cons, ih]
    simp [bufWriteU32]

/-- `stPack` splits as a 76-byte prefix (header plus field descriptors),
the encoded rows, and the alignment padding. -/
theorem stPack_eq (rows : List (List ℕ)) :
    stPack rows
      = (u32b rows.length ++ u32b 5 ++ u32b 76 ++ u32b 4 ++ stFields.flatMap fieldBytes)
        ++ (rows.flatMap (encodeRow 4 stFields)
            ++ padAlign (76 + (rows.flatMap (encodeRow 4 stFields)).length)) := by
  simp only [stPack, stFields_len, entrySizeOf_stFields]
  have hblen : (u32b rows.length ++ u32b 5 ++ u32b (16 + 5 * 12) ++ u32b 4
      ++ stFields.flatMap fieldBytes ++ rows.flatMap (encodeRow 4 stFields)).length
      = 76 + (rows.flatMap (encodeRow 4 stFields)).length := by
    have h60 : (List.map (List.length ∘ fieldBytes) stFields).sum = 60 := by decide
    simp [u32b]
    omega
  rw [hblen]
  have h76 : (16 + 5 * 12 : ℕ) = 76 := by norm_num
  rw [h76]
  simp [List.append_assoc]

/-- The bytes at row slot `i` of the packed stream are exactly the encoding
of row `i`. -/
theorem rows_extract (rows : List (List ℕ)) (tail : List ℕ) :
    ∀ i, i < rows.length →
    ((rows.flatMap (encodeRow 4 stFields) ++ tail).drop (i * 4)).take 4
      = encodeRow 4 stFields (rows.getD i []) := by
  induction rows with
  | nil => intro i hi; simp at hi
  | cons r rs ih =>
    intro i hi
    rw [List.flatMap_cons, List.append_assoc]
    cases i with
    | zero =>
      rw [Nat.zero_mul, List.drop_zero, List.getD_cons_zero]
      exact List.take_left' (encodeRow_length 4 stFields r)
    | succ j =>
      have h : (j + 1) * 4 = (encodeRow 4 stFields r).length + j * 4 := by
        rw [encodeRow_length]; ring
      rw [h, List.drop_append, List.getD_cons_succ]
      exact ih j (Nat.lt_of_succ_lt_succ hi)



theorem stDescBytes_len : stDescBytes.length = 72 := by decide

theorem getD_u32b_append (n : ℕ) (X : List ℕ) (j : ℕ) :
    (u32b n ++ X).getD (4 + j) 0 = X.getD j 0 := by
  rw [List.getD_append_right (u32b n) X 0 (4 + j) (by simp [u32b])]
  simp [u32b]

theorem readU32_shift4 (n : ℕ) (X : List ℕ) (o : ℕ) (ho : 4 ≤ o) :
    readU32 (u32b n ++ X) o = readU32 X (o - 4) := by
  have h1 : o = 4 + (o - 4) := by omega
  have h2 : o + 1 = 4 + (o - 4 + 1) := by omega
  have h3 : o + 2 = 4 + (o - 4 + 2) := by omega
  have h4 : o + 3 = 4 + (o - 4 + 3) := by omega
  unfold readU32
  rw [h2, h3, h4, getD_u32b_append, getD_u32b_append, getD_u32b_append]
  conv_lhs => rw [h1, getD_u32b_append]
  simp [Nat.add_sub_cancel_left]

theorem readU16_shift4 (n : ℕ) (X : List ℕ) (o : ℕ) (ho : 4 ≤ o) :
    readU16 (u32b n ++ X) o = readU16 X (o - 4) := by
  have h1 : o = 4 + (o - 4) := by omega
  have h2 : o + 1 = 4 + (o - 4 + 1) := by omega
  unfold readU16
  rw [h2, getD_u32b_append]
  conv_lhs => rw [h1, getD_u32b_append]
  simp [Nat.add_sub_cancel_left]

theorem readU8_shift4 (n : ℕ) (X : List ℕ) (o : ℕ) (ho : 4 ≤ o) :
    readU8 (u32b n ++ X) o = readU8 X (o - 4) := by
  have h1 : o = 4 + (o - 4) := by omega
  unfold readU8
  conv_lhs => rw [h1, getD_u32b_append]

theorem getD_desc_append (Y : List ℕ) (j : ℕ) (h : j < 72) :
    (stDescBytes ++ Y).getD j 0 = stDescBytes.getD j 0 := by
  rw [List.getD_append stDescBytes Y 0 j (by rw [stDescBytes_len]; omega)]

theorem readU32_desc (Y : List ℕ) (j : ℕ) (h : j + 3 < 72) :
    readU32 (stDescBytes ++ Y) j = readU32 stDescBytes j := by
  unfold readU32
  rw [getD_desc_append _ _ (by omega), getD_desc_append _ _ (by omega),
    getD_desc_append _ _ (by omega), getD_desc_append _ _ (by omega)]

theorem readU16_desc (Y : List ℕ) (j : ℕ) (h : j + 1 < 72) :
    readU16 (stDescBytes ++ Y) j = readU16 stDescBytes j := by
  unfold readU16
  rw [getD_desc_append _ _ (by omega), getD_desc_append _ _ (by omega)]

theorem readU8_desc (Y : List ℕ) (j : ℕ) (h : j < 72) :
    readU8 (stDescBytes ++ Y) j = readU8 stDescBytes j := by
  unfold readU8
  rw [getD_desc_append _ _ h]

/-- `stPack` seen as the entry count, the descriptor block, the rows, and
the padding. -/
theorem stPack_eq2 (rows : List (List ℕ)) :
    stPack rows = u32b rows.length ++ (stDescBytes
      ++ (rows.flatMap (encodeRow 4 stFields)
          ++ padAlign (76 + (rows.flatMap (encodeRow 4 stFields)).length))) := by
  rw [stPack_eq]
  simp [stDescBytes, List.append_assoc]

theorem parseField_packed (rows : List (List ℕ)) (o : ℕ) (h4 : 4 ≤ o)
    (h72 : o + 11 < 76) :
    parseField (stPack rows) o = parseField stDescBytes (o - 4) := by
  rw [stPack_eq2]
  unfold parseField
  rw [readU32_shift4 _ _ _ (by omega), readU32_shift4 _ _ _ (by omega),
    readU16_shift4 _ _ _ (by omega), readU8_shift4 _ _ _ (by omega),
    readU8_shift4 _ _ _ (by omega),
    readU32_desc _ _ (by omega), readU32_desc _ _ (by omega),
    readU16_desc _ _ (by omega), readU8_desc _ _ (by omega), readU8_desc _ _ (by omega)]
  have e1 : o + 4 - 4 = o - 4 + 4 := by omega
  have e2 : o + 8 - 4 = o - 4 + 8 := by omega
  have e3 : o + 10 - 4 = o - 4 + 10 := by omega
  have e4 : o + 11 - 4 = o - 4 + 11 := by omega
  rw [e1, e2, e3, e4]

/-- Unpacking a packed surface-type list recovers the rows, provided each
row holds the five field values within their bit widths. -/
theorem stUnpack_stPack (rows : List (List ℕ))
    (hr : ∀ r ∈ rows, ∃ a b c d e, r = [a, b, c, d, e] ∧
      a < 256 ∧ b < 128 ∧ c < 64 ∧ d < 16 ∧ e < 2)
    (hlen : rows.length < 4294967296) :
    stUnpack (stPack rows) = Except.ok rows := by
  have hec : readU32 (stPack rows) 0 = rows.length := by
    rw [stPack_eq2]
    have h : readU32 (u32b rows.length ++ (stDescBytes
        ++ (rows.flatMap (encodeRow 4 stFields)
            ++ padAlign (76 + (rows.flatMap (encodeRow 4 stFields)).length)))) 0
        = rows.length % 256 + 256 * (rows.length / 256 % 256)
          + 65536 * (rows.length / 65536 % 256)
          + 16777216 * (rows.length / 16777216 % 256) := rfl
    rw [h]; omega
  have hread : ∀ o, 4 ≤ o → o + 3 < 76 →
      readU32 (stPack rows) o = readU32 stDescBytes (o - 4) := by
    intro o ho h76
    rw [stPack_eq2, readU32_shift4 _ _ _ ho, readU32_desc _ _ (by omega)]
  have h4' : readU32 (stPack rows) 4 = 5 := by
    rw [hread 4 (by omega) (by omega)]; decide
  have h8 : readU32 (stPack rows) 8 = 76 := by
    rw [hread 8 (by omega) (by omega)]; decide
  have h12 : readU32 (stPack rows) 12 = 4 := by
    rw [hread 12 (by omega) (by omega)]; decide
  have hflds : (List.range (readU32 (stPack rows) 4)).map
      (fun i => parseField (stPack rows) (16 + 12 * i)) = stFields := by
    rw [h4']
    show [parseField (stPack rows) (16 + 12 * 0), parseField (stPack rows) (16 + 12 * 1),
          parseField (stPack rows) (16 + 12 * 2), parseField (stPack rows) (16 + 12 * 3),
          parseField (stPack rows) (16 + 12 * 4)] = stFields
    rw [parseField_packed rows _ (by omega) (by omega),
      parseField_packed rows _ (by omega) (by omega),
      parseField_packed rows _ (by omega) (by omega),
      parseField_packed rows _ (by omega) (by omega),
      parseField_packed rows _ (by omega) (by omega)]
    decide
  have hbody : stUnpack (stPack rows)
      = if (List.range (readU32 (stPack rows) 4)).map
            (fun i => parseField (stPack rows) (16 + 12 * i)) = stFields then
          Except.ok ((List.range (readU32 (stPack rows) 0)).map fun i =>
            decodeRow ((List.range (readU32 (stPack rows) 4)).map
              (fun i => parseField (stPack rows) (16 + 12 * i)))
              (((stPack rows).drop (readU32 (stPack rows) 8
                  + i * readU32 (stPack rows) 12)).take (readU32 (stPack rows) 12)))
        else Except.error () := rfl
  rw [hbody, if_pos hflds, hec, h8, h12, hflds]
  refine congrArg Except.ok ?_
  have hpre : (u32b rows.length ++ u32b 5 ++ u32b 76 ++ u32b 4
      ++ stFields.flatMap fieldBytes).length = 76 := by
    have h60 : (List.map (List.length ∘ fieldBytes) stFields).sum = 60 := by decide
    simp [u32b]
    omega
  apply List.ext_getElem
  · simp
  · intro i h1 h2
    simp only [List.getElem_map, List.getElem_range]
    have hi : i < rows.length := h2
    rw [stPack_eq]
    rw [show 76 + i * 4 = (u32b rows.length ++ u32b 5 ++ u32b 76 ++ u32b 4
        ++ stFields.flatMap fieldBytes).length + i * 4 by rw [hpre]]
    rw [List.drop_append, rows_extract rows _ i hi]
    have hm : rows.getD i [] ∈ rows := by
      rw [List.getD_eq_getElem rows [] hi]
      exact List.getElem_mem hi
    obtain ⟨a, b, c, d, e, heq, ha, hb, hc, hd, he⟩ := hr _ hm
    rw [List.getD_eq_getElem rows [] hi] at heq
    rw [List.getD_eq_getElem rows [] hi, heq]
    exact decode_encode_row a b c d e ha hb hc hd he

end bcsv

/-- C8: encoding the surface type (camera_id 0x12, sound 5, floor 10,
wall 3, camera_through true) produces the single u32 row 0x02650512 and
decoding recovers the fields; and for the fixed surface-type field
ordering, unpack of pack returns the rows exactly, so encode, decode,
encode is byte-identical. -/
theorem claim8_bcsv_roundtrip :
    bcsv.readU32 (bcsv.encodeRow 4 bcsv.stFields [0x12, 5, 10, 3, 1]) 0 = 0x02650512 ∧
    bcsv.decodeRow bcsv.stFields (bcsv.encodeRow 4 bcsv.stFields [0x12, 5, 10, 3, 1])
      = [0x12, 5, 10, 3, 1] ∧
    ∀ rows : List (List ℕ),
      (∀ r ∈ rows, ∃ a b c d e, r = [a, b, c, d, e] ∧
        a < 256 ∧ b < 128 ∧ c < 64 ∧ d < 16 ∧ e < 2) →
      rows.length < 4294967296 →
      bcsv.stUnpack (bcsv.stPack rows) = Except.ok rows ∧
      bcsv.stPack ((bcsv.stUnpack (bcsv.stPack rows)).toOption.getD [])
        = bcsv.stPack rows := by
  refine ⟨by decide, by decide, fun rows hr hlen => ?_⟩
  have h := bcsv.stUnpack_stPack rows hr hlen
  exact ⟨h, by rw [h]; rfl⟩

/-- Witness for C8: the roundtrip theorem applied to the single-row list
for the example surface type. -/
theorem claim8_witness :
    bcsv.stUnpack (bcsv.stPack [[18, 5, 10, 3, 1]]) = Except.ok [[18, 5, 10, 3, 1]] := by
  refine (claim8_bcsv_roundtrip.2.2 [[18, 5, 10, 3, 1]] ?_ ?_).1
  · intro r hr
    rw [List.mem_singleton] at hr
    exact ⟨18, 5, 10, 3, 1, hr, by norm_num, by norm_num, by norm_num, by norm_num,
      by norm_num⟩
  · norm_num

end KCL
